import Mathlib

/-!
# Verification of `modular_decomposition` (`src/md.py`)

A shallow embedding of the modular-decomposition implementation in
`src/md.py` (the Tedder–Corneil–Habib–Paul algorithm, as implemented in
this repository) together with proofs about the claims of its
specification.

Python objects are modelled as follows.

* Vertices (`Node` objects) are identified by natural numbers.  The
  graph (`Graph`) is an insertion-ordered association list from vertex
  id to its adjacency list; Python `set` fields are lists without
  duplicates, and set insertion is "append if absent".
* `Tree` objects live in an arena (`List TNode`); a tree node is
  referred to by its index in the arena, and `parent` / `children` /
  `container` links are indices.  Mutation is modelled by state
  passing; every function is written first-order so that concrete runs
  evaluate inside the kernel.
* Python exceptions are an explicit error type `Err`; fallible code
  returns `Except Err`.  `while` loops take fuel and report `fuelOut`
  when it runs out (the concrete runs in this file never do).
* Python's iteration order over a `set` is arbitrary; the embedding
  fixes deterministic realizations of it.  The pivot choice
  `next(iter(s))` is parameterized by a priority order `pri` so that
  claims over "every choice of pivot" quantify over `pri`.
-/

namespace MD

/-! ## Basic set-as-list operations (Python `set` semantics) -/

/-- Membership test on a list used as a set. -/
def smem : Nat → List Nat → Bool
  | _, [] => false
  | x, y :: ys => if x = y then true else smem x ys

/-- `set.add`: append an element unless present (mutating a Python set
keeps the existing elements in place). -/
def sadd (xs : List Nat) (x : Nat) : List Nat :=
  if smem x xs then xs else xs ++ [x]

/-- `a & b` on vertex sets (in the order of the left operand). -/
def sinter (xs ys : List Nat) : List Nat := xs.filter (fun x => smem x ys)

/-- `a - b` on vertex sets. -/
def sdiff (xs ys : List Nat) : List Nat := xs.filter (fun x => !smem x ys)

/-- `a | b` on vertex sets. -/
def sunion (xs ys : List Nat) : List Nat :=
  xs ++ ys.filter (fun y => !smem y xs)

/-- `a <= b` (subset) on vertex sets. -/
def ssubset (xs ys : List Nat) : Bool := xs.all (fun x => smem x ys)

/-- `list.remove` / `set.discard`: drop the first occurrence. -/
def sremove : List Nat → Nat → List Nat
  | [], _ => []
  | y :: ys, x => if y = x then ys else y :: sremove ys x

/-! ## The graph model (`Node`, `Graph` of `src/md.py`)

`Node.adjacent` is a set of `Node` objects; since `Graph.add_edge`
creates exactly one `Node` object per id, adjacency is faithfully a
set of vertex ids.  A `Graph` is the `nodes` dictionary of
`src/md.py`: keys in insertion order, each key mapped to the vertex's
adjacency set. -/

/-- The `Graph.nodes` dictionary: vertex id ↦ adjacency set. -/
abbrev Graph := List (Nat × List Nat)

/-- Whether the graph has a vertex `u` (`u_id in self.nodes.keys()`). -/
def Graph.hasNode : Graph → Nat → Bool
  | [], _ => false
  | p :: ps, u => if p.1 = u then true else Graph.hasNode ps u

/-- Adjacency set of vertex `u` (empty when `u` is not in the graph). -/
def Graph.adj : Graph → Nat → List Nat
  | [], _ => []
  | p :: ps, u => if p.1 = u then p.2 else Graph.adj ps u

/-- Vertex ids of the graph in insertion order (`Graph.get_nodes`). -/
def Graph.verts (g : Graph) : List Nat := g.map Prod.fst

/-- `Graph.add_node`: add a vertex unless already present. -/
def Graph.addNode (g : Graph) (u : Nat) : Graph :=
  if g.hasNode u then g else g ++ [(u, [])]

/-- `Node.add_neighbor` applied to the node with id `u`: add `v` to
`u`'s adjacency set. -/
def Graph.addNeighbor : Graph → Nat → Nat → Graph
  | [], _, _ => []
  | p :: ps, u, v =>
    if p.1 = u then (p.1, sadd p.2 v) :: ps
    else p :: Graph.addNeighbor ps u v

/-- `Graph.add_edge`: create missing endpoints, then add each endpoint
to the other's adjacency set. -/
def Graph.addEdge (g : Graph) (u v : Nat) : Graph :=
  let g := g.addNode u
  let g := g.addNode v
  let g := g.addNeighbor u v
  g.addNeighbor v u

/-- A sequence of `add_edge` calls on an initially empty graph. -/
def Graph.ofEdges (es : List (Nat × Nat)) : Graph :=
  es.foldl (fun g e => g.addEdge e.1 e.2) ([] : Graph)

/-- A graph built by `add_node` for every vertex and then `add_edge`
for every edge (how the repository's generators construct graphs). -/
def Graph.build (vs : List Nat) (es : List (Nat × Nat)) : Graph :=
  es.foldl (fun g e => g.addEdge e.1 e.2) (vs.foldl Graph.addNode [])

/-! ## The ordered partition (`PartitionClass`, `Partition`)

A `Partition` is its chain of classes from `head` through the `next`
pointers; `prepend`, `replace` and `pop_first` act on the chain
exactly as the pointer manipulations of the source do. -/

/-- A partition: the list of classes reachable from `head`, each class
being its vertex set. -/
abbrev Partition := List (List Nat)

/-- `Partition.pop_first`: remove and return the head class.  The
three branches of the source (`head is None`, `head.next is not None`,
the final fallthrough) are the three cases. -/
def Partition.popFirst (p : Partition) : Option (List Nat) × Partition :=
  match p with
  | [] => (none, [])
  | old :: rest =>
    match rest with
    | _ :: _ => (some old, rest)
    | [] => (some old, [])

/-- `Partition.prepend`. -/
def Partition.prepend (p : Partition) (c : List Nat) : Partition := c :: p

/-- `Partition.flatten`: the union of all classes. -/
def Partition.flat (p : Partition) : List Nat :=
  p.foldl (fun acc c => sunion acc c) []

/-- `Partition.is_empty`. -/
def Partition.empty? (p : Partition) : Bool := List.isEmpty p

/-! ## The tree model (`Tree` of `src/md.py`)

`Tree` objects live in an arena; a node is its index.  The `node` data
field of a leaf is either a graph vertex (`vertex`) or — for the
placeholder leaves that `build_spine` makes from `frozenset`s of tree
nodes — a list of tree-node indices (`comp`); `type(leaf.node) !=
Node` in the source corresponds to `comp` being set. -/

/-- `Type` of `src/md.py` (`NODE` is a leaf). -/
inductive Ty
  | series
  | parallel
  | prime
  | node
deriving DecidableEq, Repr

/-- `Label` of `src/md.py`. -/
inductive Lab
  | dead
  | zombie
deriving DecidableEq, Repr

/-- `Connectivity` of `src/md.py`. -/
inductive Conn
  | component
  | coComponent
deriving DecidableEq, Repr

/-- One `Tree` object: its essential attributes and the scratch
attributes used by the algorithm, with the constructor defaults of
`Tree.__init__` (`mu`, `rho` and `tree_index` start as `None` in the
source and are written before being read; they are plain naturals
here). -/
structure TNode where
  ty : Ty
  vertex : Option Nat := none
  comp : Option (List Nat) := none
  parent : Option Nat := none
  children : List Nat := []
  isMarked : Bool := false
  label : Option Lab := none
  conn : Nat × Option Conn := (0, none)
  mu : Nat := 0
  rho : Nat := 0
  markCount : Nat := 0
  treeIndex : Nat := 0
deriving DecidableEq, Repr

/-- The per-vertex scratch state of a `Node` object: `alpha`,
`active_alpha` and `container` (the initial values of
`Node.__init__`). -/
structure VState where
  alpha : List Nat := []
  activeAlpha : List Nat := []
  container : Option Nat := none
deriving DecidableEq, Repr

/-- The mutable heap of a run: one `VState` per graph vertex, and the
arena of `Tree` objects. -/
structure St where
  vs : List (Nat × VState)
  arena : List TNode
deriving DecidableEq, Repr

/-- Python exceptions (plus `fuelOut` for exhausted loop fuel).
`emptyGraph` is modelled from the spec: §7 of the spec names an
`EmptyGraph` failure, but no such error exists anywhere in the
repository's source; the constructor only serves to state the claims
that mention it. -/
inductive Err
  | stopIteration
  | indexError
  | valueError
  | noneError
  | fuelOut
  | emptyGraph
deriving DecidableEq, Repr

/-- The arena of tree nodes. -/
abbrev Arena := List TNode

/-- Read a tree node (out-of-range reads, which never occur on this
development's runs, give a detached default leaf). -/
def tnOf : Arena → Nat → TNode
  | [], _ => { ty := Ty.node }
  | t :: _, 0 => t
  | _ :: ts, n + 1 => tnOf ts n

/-- Write a tree node. -/
def setNth : Arena → Nat → TNode → Arena
  | [], _, _ => []
  | _ :: ts, 0, t' => t' :: ts
  | t :: ts, n + 1, t' => t :: setNth ts n t'

/-- Mutate one tree node in place. -/
def updTn (ar : Arena) (i : Nat) (f : TNode → TNode) : Arena :=
  setNth ar i (f (tnOf ar i))

/-- Allocate a fresh tree node, returning its index. -/
def alloc (ar : Arena) (t : TNode) : Nat × Arena :=
  (ar.length, ar ++ [t])

/-- Read a vertex's scratch state. -/
def vsOf : List (Nat × VState) → Nat → VState
  | [], _ => {}
  | p :: ps, u => if p.1 = u then p.2 else vsOf ps u

/-- Mutate a vertex's scratch state in place. -/
def updVs : List (Nat × VState) → Nat → (VState → VState) → List (Nat × VState)
  | [], _, _ => []
  | p :: ps, u, f => if p.1 = u then (p.1, f p.2) :: ps else p :: updVs ps u f

/-- `Tree.insert`: append `c` to `p`'s children and set `c`'s parent. -/
def insertChild (ar : Arena) (p c : Nat) : Arena :=
  let ar := updTn ar p (fun t => { t with children := t.children ++ [c] })
  updTn ar c (fun t => { t with parent := some p })

/-- `list.remove` on a children list: drop the first occurrence. -/
def removeChild (ar : Arena) (p c : Nat) : Arena :=
  updTn ar p (fun t => { t with children := sremove t.children c })

/-- `Tree.is_degenerate`. -/
def degenerate (t : TNode) : Bool :=
  match t.ty with
  | Ty.parallel => true
  | Ty.series => true
  | _ => false

/-- Depth-first pre-order of the tree rooted at `n` (the `__iter__`
generator), as a snapshot of the arena `ar`. -/
def dfs (ar : Arena) : Nat → Nat → List Nat
  | 0, _ => []
  | fuel + 1, n =>
    n :: ((tnOf ar n).children.map (dfs ar fuel)).flatten

/-- `Tree.leaves`: the `NODE`-typed members of the pre-order, left to
right. -/
def leavesOf (ar : Arena) (fuel n : Nat) : List Nat :=
  (dfs ar fuel n).filter (fun i =>
    match (tnOf ar i).ty with
    | Ty.node => true
    | _ => false)

/-- The vertices held by the leaves below `n` (placeholder leaves hold
no vertex and are skipped). -/
def leafVertsOf (ar : Arena) (fuel n : Nat) : List Nat :=
  (leavesOf ar fuel n).foldl
    (fun acc i =>
      match (tnOf ar i).vertex with
      | some v => acc ++ [v]
      | none => acc) []

/-- `Tree.get_root`: walk the `parent` pointers to the root. -/
def getRoot (ar : Arena) : Nat → Nat → Except Err Nat
  | 0, _ => Except.error Err.fuelOut
  | fuel + 1, n =>
    match (tnOf ar n).parent with
    | some p => getRoot ar fuel p
    | none => Except.ok n

/-- `Tree.group_children` with predicate `f`: the children satisfying
`f` and the rest, both in child order. -/
def groupChildren (ar : Arena) (u : Nat) (f : TNode → Bool) :
    List Nat × List Nat :=
  let ch := (tnOf ar u).children
  (ch.filter (fun c => f (tnOf ar c)), ch.filter (fun c => !f (tnOf ar c)))

/-- The loop of `Tree.replace_children`: move each child into the new
node `nid` and remove it from `u`. -/
def replaceChildrenGo (u nid : Nat) : List Nat → Arena → Arena
  | [], ar => ar
  | c :: cs, ar =>
    let ar := insertChild ar nid c
    let ar := removeChild ar u c
    replaceChildrenGo u nid cs ar

/-- `Tree.replace_children`: move `cs` out of `u` under a fresh node
of `u`'s type (inheriting the first moved child's `tree_index`), and
insert that node as a child of `u`; returns the new node.  The
`children[0]` access fails on an empty `cs` as in Python. -/
def replaceChildren (ar : Arena) (u : Nat) (cs : List Nat) :
    Except Err (Nat × Arena) :=
  match cs with
  | [] => Except.error Err.indexError
  | c0 :: _ =>
    let (nid, ar) := alloc ar { ty := (tnOf ar u).ty, treeIndex := (tnOf ar c0).treeIndex }
    let ar := replaceChildrenGo u nid cs ar
    Except.ok (nid, insertChild ar u nid)

/-- Set the `connectivity` label of every leaf in `ls`. -/
def setConnAll (cv : Conn) (num : Nat) : List Nat → Arena → Arena
  | [], ar => ar
  | l :: ls, ar =>
    setConnAll cv num ls (updTn ar l (fun t => { t with conn := (num, some cv) }))

/-- The per-child loop of `label_by_component`'s multi-component case:
each child's leaf set is one (co-)component. -/
def labelChildren (fl : Nat) (cv : Conn) : List Nat → Nat → Arena → Nat × Arena
  | [], num, ar => (num, ar)
  | c :: cs, num, ar =>
    let ar := setConnAll cv num (leavesOf ar fl c) ar
    labelChildren fl cv cs (num + 1) ar

/-- `Tree.label_by_component`: when the root's type matches the
requested connectivity (`PARALLEL`+component or
`SERIES`+co-component), each child's leaf set is one (co-)component;
otherwise the whole leaf set is a single one.  Returns the updated
number of components. -/
def labelByComponent (fl : Nat) (root : Nat) (cv : Conn) (num : Nat)
    (ar : Arena) : Nat × Arena :=
  let t := tnOf ar root
  let multi :=
    match t.ty, cv with
    | Ty.parallel, Conn.component => true
    | Ty.series, Conn.coComponent => true
    | _, _ => false
  if multi then labelChildren fl cv t.children num ar
  else (num + 1, setConnAll cv num (leavesOf ar fl root) ar)

/-! ## `tree_refinement` (lines 684–796 of `src/md.py`) -/

/-- Lines 731–739: mark the container leaf of every vertex on the
active alpha list, bump its parent's mark count and collect the
parents; threads `(marked_leaves, unmarked_nodes_with_a_marked_child)`
as insertion-ordered sets. -/
def markActive (vs : List (Nat × VState)) :
    List Nat → Arena → List Nat → List Nat →
    Except Err (Arena × List Nat × List Nat)
  | [], ar, ml, u => Except.ok (ar, ml, u)
  | nv :: rest, ar, ml, u =>
    match (vsOf vs nv).container with
    | none => Except.error Err.noneError
    | some ct =>
      let ar := updTn ar ct (fun t => { t with isMarked := true })
      let ml := sadd ml ct
      match (tnOf ar ct).parent with
      | some pp =>
        let ar := updTn ar pp (fun t => { t with markCount := t.markCount + 1 })
        markActive vs rest ar ml (sadd u pp)
      | none => markActive vs rest ar ml u

/-- The upward marking walk (lines 742–760), starting from a `parent`
pointer: mark a node whose children are all marked, push the count to
its parent and continue; otherwise enroll it among the nodes with a
marked child and stop. -/
def refineWalk : Nat → Option Nat → Arena → List Nat → List Nat →
    Except Err (Arena × List Nat × List Nat)
  | 0, _, _, _, _ => Except.error Err.fuelOut
  | _ + 1, none, ar, mn, u => Except.ok (ar, mn, u)
  | fuel + 1, some p, ar, mn, u =>
    let t := tnOf ar p
    if t.markCount = t.children.length then
      let (ar, u) :=
        match t.parent with
        | some gp =>
          if !t.isMarked then
            let ar := updTn ar gp (fun x => { x with markCount := x.markCount + 1 })
            if !(tnOf ar gp).isMarked then (ar, sadd u gp) else (ar, u)
          else (ar, u)
        | none => (ar, u)
      let ar := updTn ar p (fun x => { x with isMarked := true })
      refineWalk fuel t.parent ar (sadd mn p) (sremove u p)
    else
      if t.children.any (fun c => (tnOf ar c).isMarked) then
        Except.ok (ar, mn, sadd u p)
      else
        Except.ok (ar, mn, u)

/-- Run `refineWalk` from every marked leaf (lines 741–760). -/
def walkAll (fuel : Nat) : List Nat → Arena → List Nat → List Nat →
    Except Err (Arena × List Nat × List Nat)
  | [], ar, mn, u => Except.ok (ar, mn, u)
  | t :: ts, ar, mn, u =>
    match refineWalk fuel (tnOf ar t).parent ar mn u with
    | Except.error e => Except.error e
    | Except.ok (ar, mn, u) => walkAll fuel ts ar mn u

/-- The splitting pass (lines 762–791) for one node with both marked
and unmarked children: wrap the marked group and the unmarked group of
a degenerate node, then label it `DEAD` and order the marked group
first exactly in tree 1. -/
def refineSplit (ar : Arena) (u : Nat) : Except Err Arena :=
  let (a, b) := groupChildren ar u (fun t => t.isMarked)
  let step1 : Except Err Arena :=
    if a.length > 1 && degenerate (tnOf ar u) then
      match replaceChildren ar u a with
      | Except.error e => Except.error e
      | Except.ok (nid, ar) =>
        Except.ok (updTn ar nid (fun x => { x with isMarked := true }))
    else Except.ok ar
  match step1 with
  | Except.error e => Except.error e
  | Except.ok ar =>
    let step2 : Except Err Arena :=
      if b.length > 1 && degenerate (tnOf ar u) then
        match replaceChildren ar u b with
        | Except.error e => Except.error e
        | Except.ok (nid, ar) =>
          Except.ok (updTn ar nid (fun x => { x with isMarked := false }))
      else Except.ok ar
    match step2 with
    | Except.error e => Except.error e
    | Except.ok ar =>
      match (tnOf ar u).label with
      | some Lab.dead => Except.ok ar
      | _ =>
        let ar := updTn ar u (fun x => { x with label := some Lab.dead })
        let (marked, unmarked) := groupChildren ar u (fun t => t.isMarked)
        if (tnOf ar u).treeIndex = 1 then
          Except.ok (updTn ar u (fun x => { x with children := marked ++ unmarked }))
        else
          Except.ok (updTn ar u (fun x => { x with children := unmarked ++ marked }))

/-- Apply `refineSplit` to every collected node. -/
def splitAll : List Nat → Arena → Except Err Arena
  | [], ar => Except.ok ar
  | n :: ns, ar =>
    match refineSplit ar n with
    | Except.error e => Except.error e
    | Except.ok ar => splitAll ns ar

/-- Lines 793–796: clear the mark and the counter of every touched
node. -/
def clearMarks : List Nat → Arena → Arena
  | [], ar => ar
  | n :: ns, ar =>
    clearMarks ns (updTn ar n (fun x => { x with isMarked := false, markCount := 0 }))

/-- Lines 719–796, the body for one leaf `y`: compute `active_alpha`,
mark bottom-up, split, and clean up. -/
def refineLeaf (fuel : Nat) (allLeaves : List Nat) (y : Nat) (st : St) :
    Except Err St :=
  match (tnOf st.arena y).vertex with
  | none => Except.error Err.noneError
  | some v =>
    let va := vsOf st.vs v
    let active := sinter va.alpha allLeaves
    let vs := updVs st.vs v
      (fun w => { w with activeAlpha := active, alpha := sdiff w.alpha active })
    match markActive vs active st.arena [] [] with
    | Except.error e => Except.error e
    | Except.ok (ar, ml, u) =>
      match walkAll fuel ml ar [] u with
      | Except.error e => Except.error e
      | Except.ok (ar, mn, u) =>
        match splitAll u ar with
        | Except.error e => Except.error e
        | Except.ok ar =>
          Except.ok { vs := vs, arena := clearMarks (sunion (sunion ml mn) u) ar }

/-- The live `for y in tree.leaves()` loop: a depth-first generator
that re-reads every children list at each step, so in-place mutation
during the iteration behaves as in Python.  The stack holds
`(node, next child index)` frames. -/
def refineTreeLoop (allLeaves : List Nat) :
    Nat → List (Nat × Nat) → St → Except Err St
  | 0, _, _ => Except.error Err.fuelOut
  | _ + 1, [], st => Except.ok st
  | fuel + 1, (n, i) :: rest, st =>
    match (tnOf st.arena n).children.get? i with
    | none => refineTreeLoop allLeaves fuel rest st
    | some c =>
      let step : Except Err St :=
        match (tnOf st.arena c).ty with
        | Ty.node => refineLeaf fuel allLeaves c st
        | _ => Except.ok st
      match step with
      | Except.error e => Except.error e
      | Except.ok st => refineTreeLoop allLeaves fuel ((c, 0) :: (n, i + 1) :: rest) st

/-- Lines 713–716: tag every node of every tree with its tree's
index. -/
def tagNodes (i : Nat) : List Nat → Arena → Arena
  | [], ar => ar
  | n :: ns, ar => tagNodes i ns (updTn ar n (fun x => { x with treeIndex := i }))

/-- Tag the trees one after the other. -/
def tagTrees (fl : Nat) : Nat → List Nat → Arena → Arena
  | _, [], ar => ar
  | i, tr :: trs, ar => tagTrees fl (i + 1) trs (tagNodes i (dfs ar fl tr) ar)

/-- Process the trees of the partition one after the other (the root
of a tree is itself yielded first by `leaves()` when it is a leaf). -/
def refineTrees (fuel : Nat) (allLeaves : List Nat) :
    List Nat → St → Except Err St
  | [], st => Except.ok st
  | tr :: trs, st =>
    let step : Except Err St :=
      match (tnOf st.arena tr).ty with
      | Ty.node => refineLeaf fuel allLeaves tr st
      | _ => Except.ok st
    match step with
    | Except.error e => Except.error e
    | Except.ok st =>
      match refineTreeLoop allLeaves fuel [(tr, 0)] st with
      | Except.error e => Except.error e
      | Except.ok st => refineTrees fuel allLeaves trs st

/-- `tree_refinement`: compute every leaf's `active_alpha`, then mark
and split each tree of the maximal-slice tree partition. -/
def treeRefinement (fuel : Nat) (trees : List Nat) (st : St) : Except Err St :=
  let fl := st.arena.length + 1
  let allLeaves := (trees.map (leafVertsOf st.arena fl)).flatten
  let ar := tagTrees fl 0 trees st.arena
  refineTrees fuel allLeaves trees { st with arena := ar }

/-! ## `factorize` (lines 799–867 of `src/md.py`) -/

/-- Lines 834–838: label the ancestors of a `DEAD` node `ZOMBIE`,
stopping at the first `ZOMBIE` and stepping over `DEAD` ancestors. -/
def factAncWalk : Nat → Option Nat → Arena → Except Err Arena
  | 0, _, _ => Except.error Err.fuelOut
  | _ + 1, none, ar => Except.ok ar
  | fuel + 1, some a, ar =>
    match (tnOf ar a).label with
    | some Lab.zombie => Except.ok ar
    | some Lab.dead => factAncWalk fuel (tnOf ar a).parent ar
    | none =>
      let ar := updTn ar a (fun x => { x with label := some Lab.zombie })
      factAncWalk fuel (tnOf ar a).parent ar

/-- Walk up from every `DEAD` node of the tree. -/
def deadLoop (fl : Nat) : List Nat → Arena → Except Err Arena
  | [], ar => Except.ok ar
  | n :: ns, ar =>
    match (tnOf ar n).label with
    | some Lab.dead =>
      match factAncWalk fl (tnOf ar n).parent ar with
      | Except.error e => Except.error e
      | Except.ok ar => deadLoop fl ns ar
    | _ => deadLoop fl ns ar

/-- Whether a node carries a `DEAD` or `ZOMBIE` label. -/
def isLabelled (t : TNode) : Bool :=
  match t.label with
  | some _ => true
  | none => false

/-- Lines 841–860 for one `ZOMBIE` node: wrap the unlabelled children
of a degenerate node, then order the labelled children first in tree 1
and last elsewhere. -/
def factZombie (i : Nat) (u : Nat) (ar : Arena) : Except Err Arena :=
  let (_, b) := groupChildren ar u isLabelled
  let step1 : Except Err Arena :=
    if b.length > 1 && degenerate (tnOf ar u) then
      match replaceChildren ar u b with
      | Except.error e => Except.error e
      | Except.ok (_, ar) => Except.ok ar
    else Except.ok ar
  match step1 with
  | Except.error e => Except.error e
  | Except.ok ar =>
    let (a, b) := groupChildren ar u isLabelled
    if i = 1 then
      Except.ok (updTn ar u (fun x => { x with children := a ++ b }))
    else
      Except.ok (updTn ar u (fun x => { x with children := b ++ a }))

/-- Process every `ZOMBIE` node of the tree. -/
def zombieLoop (i : Nat) : List Nat → Arena → Except Err Arena
  | [], ar => Except.ok ar
  | n :: ns, ar =>
    match factZombie i n ar with
    | Except.error e => Except.error e
    | Except.ok ar => zombieLoop i ns ar

/-- Detach a list of children (`child.parent = None`). -/
def detachAll : List Nat → Arena → Arena
  | [], ar => ar
  | c :: cs, ar => detachAll cs (updTn ar c (fun x => { x with parent := none }))

/-- Lines 862–867: clear the label of every labelled node and detach
its children. -/
def clearLabels : List Nat → Arena → Arena
  | [], ar => ar
  | n :: ns, ar =>
    if isLabelled (tnOf ar n) then
      let ar := updTn ar n (fun x => { x with label := none })
      clearLabels ns (detachAll (tnOf ar n).children ar)
    else clearLabels ns ar

/-- `factorize` for one tree of index `i`. -/
def factorizeTree (i tr : Nat) (ar : Arena) : Except Err Arena :=
  let fl := ar.length + 1
  match deadLoop fl (dfs ar fl tr) ar with
  | Except.error e => Except.error e
  | Except.ok ar =>
    let fl2 := ar.length + 1
    let zombies := (dfs ar fl2 tr).filter (fun n =>
      match (tnOf ar n).label with
      | some Lab.zombie => true
      | _ => false)
    match zombieLoop i zombies ar with
    | Except.error e => Except.error e
    | Except.ok ar =>
      let fl3 := ar.length + 1
      Except.ok (clearLabels (dfs ar fl3 tr) ar)

/-- `factorize`: propagate `DEAD` upward as `ZOMBIE`, reorder and wrap
the children of `ZOMBIE` nodes, then clear the labels and detach the
children of every labelled node. -/
def factorize : Nat → List Nat → Arena → Except Err Arena
  | _, [], ar => Except.ok ar
  | i, tr :: trs, ar =>
    match factorizeTree i tr ar with
    | Except.error e => Except.error e
    | Except.ok ar => factorize (i + 1) trs ar

/-! ## `pivot_factorizing_permutation` (lines 1045–1164 of `src/md.py`) -/

/-- The `CoComponent` namedtuple: a `frozenset` of tree leaves (kept
in leaf order) and the maximal `mu` of its members. -/
structure CoComp where
  members : List Nat
  mu : Int
deriving DecidableEq, Repr

/-- The `Component` namedtuple. -/
structure CompC where
  members : List Nat
  mu : Int
  rho : Int
deriving DecidableEq, Repr

/-- The `PivotFactorizingPermutation` namedtuple. -/
structure PFP where
  pivot : Nat
  co : List CoComp
  comps : List CompC
deriving DecidableEq, Repr

/-- Whether two nodes carry the same `connectivity` label. -/
def connEq (ar : Arena) (x y : Nat) : Bool :=
  let a := (tnOf ar x).conn
  let b := (tnOf ar y).conn
  (a.1 = b.1) &&
    (match a.2, b.2 with
     | none, none => true
     | some Conn.component, some Conn.component => true
     | some Conn.coComponent, some Conn.coComponent => true
     | _, _ => false)

/-- `itertools.groupby` keyed by the `connectivity` label: maximal
runs of consecutive leaves with equal labels. -/
def groupRuns (ar : Arena) : List Nat → List (List Nat)
  | [] => []
  | x :: rest =>
    match groupRuns ar rest with
    | [] => [[x]]
    | [] :: gs => [x] :: [] :: gs
    | (y :: g) :: gs =>
      if connEq ar x y then (x :: y :: g) :: gs
      else [x] :: (y :: g) :: gs

/-- The vertex a leaf holds (`leaf.node`; the default is never taken
on this development's runs, where these leaves always hold one). -/
def vertexD (ar : Arena) (n : Nat) : Nat :=
  match (tnOf ar n).vertex with
  | some v => v
  | none => 0

/-- `is_adjacent_to_component(any, y, compo)`: `y`'s vertex is
adjacent to some member's vertex. -/
def anyAdjacent (g : Graph) (ar : Arena) (compo : List Nat) (y : Nat) : Bool :=
  compo.any (fun n => smem (vertexD ar y) (g.adj (vertexD ar n)))

/-- `is_adjacent_to_component(all, y, compo)`. -/
def allAdjacent (g : Graph) (ar : Arena) (compo : List Nat) (y : Nat) : Bool :=
  compo.all (fun n => smem (vertexD ar y) (g.adj (vertexD ar n)))

/-- The `mu` loop for a leaf of `T₁` (lines 1128–1131): decrement `j`
while no member of `components[j-1]` is adjacent to `y`. -/
def muLoopCo (g : Graph) (ar : Arena) (compGroups : List (List Nat)) (y : Nat) :
    Nat → Nat → Nat
  | 0, j => j
  | fuel + 1, j =>
    if j > 0 && !anyAdjacent g ar (compGroups.getD (j - 1) []) y then
      muLoopCo g ar compGroups y fuel (j - 1)
    else j

/-- The `mu` loop for a leaf of `Tᵢ`, `i ≥ 2` (lines 1136–1139):
decrement `j` while `y` is adjacent to all of `co_components[j-1]`. -/
def muLoopComp (g : Graph) (ar : Arena) (coGroups : List (List Nat)) (y : Nat) :
    Nat → Nat → Nat
  | 0, j => j
  | fuel + 1, j =>
    if j > 0 && allAdjacent g ar (coGroups.getD (j - 1) []) y then
      muLoopComp g ar coGroups y fuel (j - 1)
    else j

/-- Store `mu` for every leaf in `ls` using the `T₁` loop. -/
def setMuCo (g : Graph) (compGroups : List (List Nat)) (b : Nat) :
    List Nat → Arena → Arena
  | [], ar => ar
  | y :: ys, ar =>
    let j := muLoopCo g ar compGroups y (b + 1) b
    setMuCo g compGroups b ys (updTn ar y (fun x => { x with mu := j }))

/-- Store `mu` for every leaf in `ls` using the `Tᵢ`, `i ≥ 2` loop. -/
def setMuComp (g : Graph) (coGroups : List (List Nat)) (a : Nat) :
    List Nat → Arena → Arena
  | [], ar => ar
  | y :: ys, ar =>
    let j := muLoopComp g ar coGroups y (a + 1) a
    setMuComp g coGroups a ys (updTn ar y (fun x => { x with mu := j }))

/-- The `mu` pass over the trees `T₁, …, T_k` (lines 1122–1139). -/
def muPass (g : Graph) (fl : Nat) (coGroups compGroups : List (List Nat)) :
    Nat → List Nat → Arena → Arena
  | _, [], ar => ar
  | i, tr :: trs, ar =>
    let ar :=
      if i = 1 then setMuCo g compGroups compGroups.length (leavesOf ar fl tr) ar
      else setMuComp g coGroups coGroups.length (leavesOf ar fl tr) ar
    muPass g fl coGroups compGroups (i + 1) trs ar

/-- The `rho` search (lines 1147–1150): the largest `j > i` whose
component holds a neighbor of `y`, scanning `j` downward. -/
def rhoLoop (g : Graph) (compGroups : List (List Nat)) (y i : Nat) :
    Nat → Nat → Arena → Arena
  | 0, _, ar => ar
  | fuel + 1, j, ar =>
    if j > i then
      if anyAdjacent g ar (compGroups.getD (j - 1) []) y then
        updTn ar y (fun x => { x with rho := j })
      else
        rhoLoop g compGroups y i fuel (j - 1) ar
    else ar

/-- `rho` for every member of component `i` (lines 1144–1150). -/
def setRho (g : Graph) (compGroups : List (List Nat)) (b i : Nat) :
    List Nat → Arena → Arena
  | [], ar => ar
  | y :: ys, ar =>
    let ar := updTn ar y (fun x => { x with rho := 0 })
    setRho g compGroups b i ys (rhoLoop g compGroups y i (b + 1) b ar)

/-- The `rho` pass over the components `C₁, …, C_b`. -/
def rhoPass (g : Graph) (compGroups : List (List Nat)) (b : Nat) :
    Nat → Arena → Arena
  | 0, ar => ar
  | n + 1, ar =>
    let i := b - n
    rhoPass g compGroups b n (setRho g compGroups b i (compGroups.getD (i - 1) []) ar)

/-- `max` over a list of naturals (the groups it is applied to are
nonempty, so the base 0 is never an empty `max`). -/
def maxOf (xs : List Nat) : Nat := xs.foldl Nat.max 0

/-- `pivot_factorizing_permutation`: group the leaves of `T₁` into
co-components (reversed) and the leaves of the later trees into
components, compute `mu` and `rho` for every leaf, and aggregate their
maxima per (co-)component. -/
def pfp (g : Graph) (trees : List Nat) (ar : Arena) : Except Err (PFP × Arena) :=
  let fl := ar.length + 1
  let coLeaves :=
    match trees.drop 1 with
    | [] => []
    | t1 :: _ => leavesOf ar fl t1
  let compLeaves := ((trees.drop 2).map (leavesOf ar fl)).flatten
  let coGroups := (groupRuns ar coLeaves).reverse
  let compGroups := groupRuns ar compLeaves
  let b := compGroups.length
  let ar := muPass g fl coGroups compGroups 1 (trees.drop 1) ar
  let ar := rhoPass g compGroups b b ar
  let co := coGroups.map (fun cc =>
    CoComp.mk cc (Int.ofNat (maxOf (cc.map (fun n => (tnOf ar n).mu)))))
  let comps := compGroups.map (fun c =>
    CompC.mk c (Int.ofNat (maxOf (c.map (fun n => (tnOf ar n).mu))))
      (Int.ofNat (maxOf (c.map (fun n => (tnOf ar n).rho)))))
  match trees with
  | [] => Except.error Err.indexError
  | t0 :: _ => Except.ok (PFP.mk t0 co comps, ar)

/-! ## `build_spine` (lines 870–1042 of `src/md.py`)

The loop control of `build_spine` depends only on the `μ`/`ρ` values
of the (co-)components, so it is embedded as pure functions over
`co : List Int` (the `μ(C'ᵢ)`) and `cs : List (Int × Int)` (the
`(μ(Cᵢ), ρ(Cᵢ))`), with Python's signed list indices.  Every
subscript evaluation `sigma.co_components[i - 1]` (respectively
`sigma.components[i - 1]`) is recorded in a read log as `(true, i)`
(respectively `(false, i)`); `buildSpine` below replays the recognized
modules against the arena. -/

/-- A read log: one entry per subscript evaluation, `(side, i)` where
`side = true` stands for `co_components[i - 1]` and `false` for
`components[i - 1]`. -/
abbrev ReadLog := List (Bool × Int)

/-- A recognized strong module: its elements in append order, each a
`(side, i)` reference to the `i`-th (co-)component. -/
abbrev Module := List (Bool × Int)

/-- Python list subscript: negative indices wrap once; anything
outside `[-len, len)` raises `IndexError`. -/
def pyIdx {α : Type} (xs : List α) (i : Int) : Except Err α :=
  let n : Int := Int.ofNat xs.length
  let j := if i < 0 then i + n else i
  if 0 ≤ j ∧ j < n then
    match xs.get? j.toNat with
    | some x => Except.ok x
    | none => Except.error Err.indexError
  else Except.error Err.indexError

/-- Evaluate `xs[i - 1]` for each `i` in `idxs` (left to right),
logging every subscript on side `side` and stopping at the first
failure, as a lazily evaluated Python generator does. -/
def readMany {α : Type} (side : Bool) (xs : List α) :
    List Int → ReadLog × Except Err (List α)
  | [] => ([], Except.ok [])
  | i :: rest =>
    match pyIdx xs (i - 1) with
    | Except.error e => ([(side, i)], Except.error e)
    | Except.ok v =>
      let (lg, res) := readMany side xs rest
      ((side, i) :: lg, res.map (v :: ·))

/-- `max()` of a Python sequence: `ValueError` when it is empty. -/
def pyMax (vals : List Int) : Except Err Int :=
  match vals with
  | [] => Except.error Err.valueError
  | v :: rest => Except.ok (rest.foldl max v)

/-- `range(lo, hi + 1)` as a list of integers. -/
def intRange (lo hi : Int) : List Int :=
  (List.range (hi + 1 - lo).toNat).map (fun k => lo + Int.ofNat k)

/-- The `SERIES` loop (lines 931–943): increment `l`, and while
`l ≤ a` with `μ(C'_l) = r`, append `C'_l` to the module and advance
`l`.  Returns `l` as the loop leaves it, together with the grown
module. -/
def seriesLoop (co : List Int) (r : Int) :
    Nat → Int → Module → ReadLog × Except Err (Int × Module)
  | 0, _, _ => ([], Except.error Err.fuelOut)
  | fuel + 1, l, m =>
    if l ≤ Int.ofNat co.length then
      match pyIdx co (l - 1) with
      | Except.error e => ([(true, l)], Except.error e)
      | Except.ok mu =>
        if mu = r then
          let (lg, res) := seriesLoop co r fuel (l + 1) (m ++ [(true, l)])
          ((true, l) :: (true, l) :: lg, res)
        else ([(true, l)], Except.ok (l, m))
    else ([], Except.ok (l, m))

/-- The `PARALLEL` loop (lines 948–963): increment `r`, and while
`r ≤ b` with `μ(C_r) = l` and `ρ(C_r) = 0`, append `C_r` and advance
`r` (each conjunct of the guard is its own subscript, evaluated left
to right with short-circuiting). -/
def parallelLoop (cs : List (Int × Int)) (l : Int) :
    Nat → Int → Module → ReadLog × Except Err (Int × Module)
  | 0, _, _ => ([], Except.error Err.fuelOut)
  | fuel + 1, r, m =>
    if r ≤ Int.ofNat cs.length then
      match pyIdx cs (r - 1) with
      | Except.error e => ([(false, r)], Except.error e)
      | Except.ok v =>
        if v.1 = l then
          if v.2 = 0 then
            let (lg, res) := parallelLoop cs l fuel (r + 1) (m ++ [(false, r)])
            ((false, r) :: (false, r) :: (false, r) :: lg, res)
          else ([(false, r), (false, r)], Except.ok (r, m))
        else ([(false, r)], Except.ok (r, m))
    else ([], Except.ok (r, m))

/-- The fixed-point loop of the `PRIME` branch (lines 986–1004): from
`(l', r', t, m)` compute the new `t` (a `max` over `μ(C_i)`,
`i ∈ [r', m]`) and the new `m` (a `max` over `μ(C'_i)`, `i ∈ [l', t]`
with the new `t`, and over `ρ(C_i)`, `i ∈ [r', m]` with the old `m`),
then shift `l', r'` to the old `t, m` and stop once both are fixed. -/
def primeInner (co : List Int) (cs : List (Int × Int)) :
    Nat → Int → Int → Int → Int → ReadLog × Except Err (Int × Int)
  | 0, _, _, _, _ => ([], Except.error Err.fuelOut)
  | fuel + 1, l_, r_, t, m =>
    let (lg1, res1) := readMany false cs (intRange r_ m)
    match res1 with
    | Except.error e => (lg1, Except.error e)
    | Except.ok vs1 =>
      match pyMax (vs1.map (·.1)) with
      | Except.error e => (lg1, Except.error e)
      | Except.ok mx1 =>
        let t' := max mx1 t
        let (lg2, res2) := readMany true co (intRange l_ t')
        match res2 with
        | Except.error e => (lg1 ++ lg2, Except.error e)
        | Except.ok vs2 =>
          match pyMax vs2 with
          | Except.error e => (lg1 ++ lg2, Except.error e)
          | Except.ok mx2 =>
            let (lg3, res3) := readMany false cs (intRange r_ m)
            match res3 with
            | Except.error e => (lg1 ++ lg2 ++ lg3, Except.error e)
            | Except.ok vs3 =>
              match pyMax (vs3.map (·.2)) with
              | Except.error e => (lg1 ++ lg2 ++ lg3, Except.error e)
              | Except.ok mx3 =>
                let m' := max (max mx2 mx3) m
                if t = t' ∧ m = m' then
                  (lg1 ++ lg2 ++ lg3, Except.ok (t', m'))
                else
                  let (lg4, res4) := primeInner co cs fuel t m t' m'
                  (lg1 ++ lg2 ++ lg3 ++ lg4, res4)

/-- The `PRIME` branch (lines 968–1018), entered with the module still
empty: advance both indices, expand the window `[l, t] × [r, m]` to a
fixed point and absorb those (co-)components. -/
def primeStep (co : List Int) (cs : List (Int × Int)) (fuel : Nat) (l r : Int) :
    ReadLog × Except Err (Module × Int × Int) :=
  let l := l + 1
  let r := r + 1
  match pyIdx cs (r - 1) with
  | Except.error e => ([(false, r)], Except.error e)
  | Except.ok vr =>
    let t := max vr.1 l
    match pyIdx co (l - 1) with
    | Except.error e => ([(false, r), (true, l)], Except.error e)
    | Except.ok muL =>
      match pyIdx cs (r - 1) with
      | Except.error e => ([(false, r), (true, l), (false, r)], Except.error e)
      | Except.ok vr2 =>
        let m := max muL (max vr2.2 r)
        let lg0 : ReadLog := [(false, r), (true, l), (false, r)]
        let (lg1, res1) := primeInner co cs fuel l r t m
        match res1 with
        | Except.error e => (lg0 ++ lg1, Except.error e)
        | Except.ok (t', m') =>
          let (lgA, resA) := readMany true co (intRange l t')
          match resA with
          | Except.error e => (lg0 ++ lg1 ++ lgA, Except.error e)
          | Except.ok _ =>
            let (lgB, resB) := readMany false cs (intRange r m')
            match resB with
            | Except.error e => (lg0 ++ lg1 ++ lgA ++ lgB, Except.error e)
            | Except.ok _ =>
              let module := (intRange l t').map (fun i => (true, i)) ++
                (intRange r m').map (fun i => (false, i))
              (lg0 ++ lg1 ++ lgA ++ lgB, Except.ok (module, t', m'))

/-- One iteration of `build_spine`'s outer loop (lines 921–1018):
recognize exactly one strong module containing the pivot, returning it
with the updated indices `l, r`. -/
def spineIter (co : List Int) (cs : List (Int × Int)) (fuel : Nat) (l r : Int) :
    ReadLog × Except Err (Module × Int × Int) :=
  let (lgS, resS) := seriesLoop co r fuel (l + 1) []
  match resS with
  | Except.error e => (lgS, Except.error e)
  | Except.ok (lEnd, mS) =>
    let l := lEnd - 1
    if mS ≠ [] then (lgS, Except.ok (mS, l, r))
    else
      let (lgP, resP) := parallelLoop cs l fuel (r + 1) []
      match resP with
      | Except.error e => (lgS ++ lgP, Except.error e)
      | Except.ok (rEnd, mP) =>
        let r := rEnd - 1
        if mP ≠ [] then (lgS ++ lgP, Except.ok (mP, l, r))
        else
          let (lgQ, resQ) := primeStep co cs fuel l r
          (lgS ++ lgP ++ lgQ, resQ)

/-- The outer loop of `build_spine`: iterate until `l = a` and
`r = b`, collecting the recognized modules bottom-up. -/
def spineLoop (co : List Int) (cs : List (Int × Int)) :
    Nat → Int → Int → ReadLog × Except Err (List Module)
  | 0, _, _ => ([], Except.error Err.fuelOut)
  | fuel + 1, l, r =>
    if l = Int.ofNat co.length ∧ r = Int.ofNat cs.length then ([], Except.ok [])
    else
      match spineIter co cs fuel l r with
      | (lg, Except.error e) => (lg, Except.error e)
      | (lg, Except.ok (m, l', r')) =>
        let (lg2, res2) := spineLoop co cs fuel l' r'
        (lg ++ lg2, res2.map (m :: ·))

/-- `build_spine`'s control flow from the initial `l = r = 0`. -/
def spineSteps (co : List Int) (cs : List (Int × Int)) (fuel : Nat) :
    ReadLog × Except Err (List Module) :=
  spineLoop co cs fuel 0 0

/-- Materialize the placeholder leaves of one module under the node
`u`: each element is a fresh `NODE` leaf holding the referenced
(co-)component's `frozenset` of tree nodes. -/
def spineLeaves (sigma : PFP) (u : Nat) : Module → Arena → Except Err Arena
  | [], ar => Except.ok ar
  | el :: els, ar =>
    let membersE : Except Err (List Nat) :=
      if el.1 then
        match pyIdx sigma.co (el.2 - 1) with
        | Except.error e => Except.error e
        | Except.ok c => Except.ok c.members
      else
        match pyIdx sigma.comps (el.2 - 1) with
        | Except.error e => Except.error e
        | Except.ok c => Except.ok c.members
    match membersE with
    | Except.error e => Except.error e
    | Except.ok members =>
      let (leafId, ar) := alloc ar { ty := Ty.node, comp := some members }
      spineLeaves sigma u els (insertChild ar u leafId)

/-- Materialize the recognized modules bottom-up (lines 1020–1039):
each module becomes a new node holding its placeholder leaves followed
by the tree built so far, typed `SERIES` / `PARALLEL` / `PRIME` by
which sides occur in it. -/
def spineBuild (sigma : PFP) : List Module → Nat → Arena → Except Err (Nat × Arena)
  | [], tree, ar => Except.ok (tree, ar)
  | m :: ms, tree, ar =>
    let (u, ar) := alloc ar { ty := Ty.node }
    match spineLeaves sigma u m ar with
    | Except.error e => Except.error e
    | Except.ok ar =>
      let containsCo := m.any (fun el => el.1)
      let containsComp := m.any (fun el => !el.1)
      let newTy :=
        if !containsComp then Ty.series
        else if !containsCo then Ty.parallel
        else Ty.prime
      let ar := updTn ar u (fun x => { x with ty := newTy })
      spineBuild sigma ms u (insertChild ar u tree)

/-- `build_spine`: run the control flow on `σ`'s `μ`/`ρ` values and
materialize the modules. -/
def buildSpine (fuel : Nat) (sigma : PFP) (ar : Arena) : Except Err (Nat × Arena) :=
  let co := sigma.co.map (fun c => c.mu)
  let cs := sigma.comps.map (fun c => (c.mu, c.rho))
  match (spineSteps co cs fuel).2 with
  | Except.error e => Except.error e
  | Except.ok modules => spineBuild sigma modules sigma.pivot ar

/-! ## `conquer_md_tree` (lines 1167–1285 of `src/md.py`) -/

/-- Add every element of `ls` to the set `acc`. -/
def saddAll (acc : List Nat) : List Nat → List Nat
  | [] => acc
  | x :: xs => saddAll (sadd acc x) xs

/-- The inner member loop of the placeholder replacement (lines
1247–1255), threading `(replaced, notReplaced, arena)`. -/
def replaceMembers (fuel leaf : Nat) :
    List Nat → List Nat → List Nat → Arena → Except Err (List Nat × Arena)
  | [], replaced, _, ar => Except.ok (replaced, ar)
  | tNode :: rest, replaced, notReplaced, ar =>
    if smem tNode replaced then
      replaceMembers fuel leaf rest replaced notReplaced ar
    else if smem tNode notReplaced then
      match getRoot ar fuel tNode with
      | Except.error e => Except.error e
      | Except.ok root =>
        match (tnOf ar leaf).parent with
        | none => Except.error Err.noneError
        | some par =>
          let ar := insertChild ar par root
          let rootLeaves := leavesOf ar (ar.length + 1) root
          let notReplaced := notReplaced.filter (fun x => !smem x rootLeaves)
          let replaced := saddAll replaced rootLeaves
          replaceMembers fuel leaf rest replaced notReplaced ar
    else
      replaceMembers fuel leaf rest replaced notReplaced ar

/-- The outer placeholder loop of lines 1243–1255. -/
def replaceLoop (fuel : Nat) :
    List Nat → List Nat → Arena → Except Err Arena
  | [], _, ar => Except.ok ar
  | leaf :: rest, replaced, ar =>
    match (tnOf ar leaf).comp with
    | none => replaceLoop fuel rest replaced ar
    | some members =>
      match replaceMembers fuel leaf members replaced members ar with
      | Except.error e => Except.error e
      | Except.ok (replaced, ar) => replaceLoop fuel rest replaced ar

/-- Lines 1243–1255: for each placeholder leaf of the spine, insert
(once) the current root of every slice tree holding one of its
members. -/
def replacePlaceholders (fuel tree : Nat) (ar : Arena) : Except Err Arena :=
  let phs := (leavesOf ar (ar.length + 1) tree).filter (fun l =>
    match (tnOf ar l).comp with
    | some _ => true
    | none => false)
  replaceLoop fuel phs [] ar

/-- Lines 1257–1260: remove the placeholder leaves, over a snapshot of
the leaves as `list(tree.leaves())` takes one. -/
def removePlaceholders (tree : Nat) (ar : Arena) : Except Err Arena :=
  let allL := leavesOf ar (ar.length + 1) tree
  removeGo allL ar
where
  /-- Remove each placeholder from its parent. -/
  removeGo : List Nat → Arena → Except Err Arena
    | [], ar => Except.ok ar
    | leaf :: rest, ar =>
      match (tnOf ar leaf).comp with
      | none => removeGo rest ar
      | some _ =>
        match (tnOf ar leaf).parent with
        | none => Except.error Err.noneError
        | some par => removeGo rest (removeChild ar par leaf)

/-- Insert every child of `c` into `p` (`t_node.parent.insert(child)`
of line 1281). -/
def giveChildren (p : Nat) : List Nat → Arena → Arena
  | [], ar => ar
  | ch :: chs, ar => giveChildren p chs (insertChild ar p ch)

/-- The body of the final merge scan (lines 1278–1282) for one visited
node: a degenerate node with a same-typed parent gives its children to
the parent and is removed from it. -/
def normBody (c : Nat) (ar : Arena) : Arena :=
  let t := tnOf ar c
  match t.parent with
  | none => ar
  | some p =>
    if (match t.ty, (tnOf ar p).ty with
        | Ty.series, Ty.series => true
        | Ty.parallel, Ty.parallel => true
        | Ty.prime, Ty.prime => true
        | Ty.node, Ty.node => true
        | _, _ => false) && degenerate t then
      removeChild (giveChildren p t.children ar) p c
    else ar

/-- The live `for t_node in tree` traversal of the final merge scan:
Python's generator iterates each children list by index while the loop
body mutates those lists in place, so every children list is re-read
at each step. -/
def normLoop : Nat → List (Nat × Nat) → Arena → Except Err Arena
  | 0, _, _ => Except.error Err.fuelOut
  | _ + 1, [], ar => Except.ok ar
  | fuel + 1, (n, i) :: rest, ar =>
    match (tnOf ar n).children.get? i with
    | none => normLoop fuel rest ar
    | some c =>
      normLoop fuel ((c, 0) :: (n, i + 1) :: rest) (normBody c ar)

/-- The labelling loop of lines 1219–1228: co-components for `T₁`,
components (with an accumulated count) for the later trees. -/
def labelTrees (fl : Nat) : Nat → List Nat → Nat → Arena → Nat × Arena
  | _, [], b, ar => (b, ar)
  | i, tr :: trs, b, ar =>
    if i = 1 then
      let (_, ar) := labelByComponent fl tr Conn.coComponent 0 ar
      labelTrees fl (i + 1) trs b ar
    else
      let (b, ar) := labelByComponent fl tr Conn.component b ar
      labelTrees fl (i + 1) trs b ar

/-- `conquer_md_tree`: detect the disconnected case, label the
(co-)components, refine, factorize, build the spine, splice the slice
trees back in, glue the last slice when disconnected, and merge
same-typed degenerate chains. -/
def conquer (fuel : Nat) (g : Graph) (trees : List Nat) (st : St) :
    Except Err (Nat × St) :=
  let fl := st.arena.length + 1
  let allButLast := (trees.dropLast.map (leafVertsOf st.arena fl)).flatten
  let k : Int := Int.ofNat trees.length - 1
  match pyIdx trees (-1) with
  | Except.error e => Except.error e
  | Except.ok lastT =>
    match (leavesOf st.arena fl lastT).head? with
    | none => Except.error Err.stopIteration
    | some y =>
      match (tnOf st.arena y).vertex with
      | none => Except.error Err.noneError
      | some yv =>
        let k_ : Int :=
          if (sinter (vsOf st.vs yv).alpha allButLast).length > 0 then k else k - 1
        let trees_ := trees.take (k_ + 1).toNat
        let (_, ar) := labelTrees fl 1 (trees_.drop 1) 0 st.arena
        match treeRefinement fuel trees_ { st with arena := ar } with
        | Except.error e => Except.error e
        | Except.ok st =>
          match factorize 0 trees_ st.arena with
          | Except.error e => Except.error e
          | Except.ok ar =>
            match pfp g trees_ ar with
            | Except.error e => Except.error e
            | Except.ok (sigma, ar) =>
              match buildSpine fuel sigma ar with
              | Except.error e => Except.error e
              | Except.ok (spineRoot, ar) =>
                match replacePlaceholders fuel spineRoot ar with
                | Except.error e => Except.error e
                | Except.ok ar =>
                  match removePlaceholders spineRoot ar with
                  | Except.error e => Except.error e
                  | Except.ok ar =>
                    let glue : Except Err (Nat × Arena) :=
                      if k_ = k - 1 then
                        match pyIdx trees k with
                        | Except.error e => Except.error e
                        | Except.ok tk =>
                          match (tnOf ar tk).ty with
                          | Ty.parallel => Except.ok (tk, insertChild ar tk spineRoot)
                          | _ =>
                            let (nn, ar) := alloc ar { ty := Ty.parallel }
                            let ar := insertChild ar nn spineRoot
                            Except.ok (nn, insertChild ar nn tk)
                      else Except.ok (spineRoot, ar)
                    match glue with
                    | Except.error e => Except.error e
                    | Except.ok (tree, ar) =>
                      let ar := normBody tree ar
                      match normLoop fuel [(tree, 0)] ar with
                      | Except.error e => Except.error e
                      | Except.ok ar => Except.ok (tree, { st with arena := ar })

/-! ## `divide_md_tree` and `md_tree` (lines 572–681 of `src/md.py`) -/

/-- `next(iter(s))` under a pivot policy: the element of `s` placed
first by the priority order `pri` (falling back to `s`'s own order
when `pri` does not mention it); `none` on an empty `s`, where the
source's `next` raises `StopIteration`. -/
def choosePivot : List Nat → List Nat → Option Nat
  | _, [] => none
  | [], s => s.head?
  | p :: rest, s => if smem p s then some p else choosePivot rest s

/-- Add the pivot `x` to `α(y)` for every `y` in the list (lines
629–631). -/
def alphaAddAll (x : Nat) : List Nat → List (Nat × VState) → List (Nat × VState)
  | [], vs => vs
  | y :: ys, vs => alphaAddAll x ys (updVs vs y (fun w => { w with alpha := sadd w.alpha x }))

/-- Lines 634–644: replace every class `P` by `(P ∩ N(x), P − N(x))`
when both parts are nonempty (iteration resumes after the replaced
pair, as the linked-list splice of `Partition.replace` does). -/
def refineClasses (adjx : List Nat) : Partition → Partition
  | [] => []
  | cls :: rest =>
    let a := sinter cls adjx
    let b := sdiff cls a
    if a.length ≠ 0 && b.length ≠ 0 then a :: b :: refineClasses adjx rest
    else cls :: refineClasses adjx rest

/-- The two entry points of the recursion: a `divide_md_tree(S, P)`
call, or its `while` loop over the partition (lines 670–676) carrying
the slice-tree list. -/
inductive DivArg
  | main (s : List Nat) (p : Partition)
  | loop (trees : List Nat) (s : List Nat) (p : Partition)

/-- `divide_md_tree`, fuelled: pick the pivot, log the `α`-edges,
refine the partition classes by `N(x)`, then either return a leaf
(singleton `S`) or prepend the slices of `S`, recurse on each popped
class and conquer the slice trees.  A `main` call returns a
one-element tree list. -/
def divideGo (pri : List Nat) (g : Graph) :
    Nat → DivArg → St → Except Err ((List Nat × Partition) × St)
  | 0, _, _ => Except.error Err.fuelOut
  | fuel + 1, DivArg.main s p, st =>
    match choosePivot pri s with
    | none => Except.error Err.stopIteration
    | some x =>
      let s' := p.flat
      let vs := alphaAddAll x (sinter (g.adj x) (sunion s s')) st.vs
      let p := refineClasses (g.adj x) p
      if s.length = 1 && smem x s then
        let (tid, ar) := alloc st.arena { ty := Ty.node, vertex := some x }
        let vs := updVs vs x (fun w => { w with container := some tid })
        Except.ok (([tid], p), { vs := vs, arena := ar })
      else
        let closed := sadd (g.adj x) x
        let restCls := sdiff s (sinter closed s)
        let p := if restCls.length ≠ 0 then p.prepend restCls else p
        let nbrCls := sinter (g.adj x) s
        let p := if nbrCls.length ≠ 0 then p.prepend nbrCls else p
        let (tid, ar) := alloc st.arena { ty := Ty.node, vertex := some x }
        let vs := updVs vs x (fun w => { w with container := some tid })
        match divideGo pri g fuel (DivArg.loop [tid] s p) { vs := vs, arena := ar } with
        | Except.error e => Except.error e
        | Except.ok ((trees, p'), st) =>
          match conquer fuel g trees st with
          | Except.error e => Except.error e
          | Except.ok (root, st) => Except.ok (([root], p'), st)
  | fuel + 1, DivArg.loop trees s p, st =>
    match p with
    | [] => Except.ok ((trees, p), st)
    | c :: _ =>
      if ssubset c s then
        match (Partition.popFirst p).1, (Partition.popFirst p).2 with
        | none, _ => Except.ok ((trees, p), st)
        | some cls, p1 =>
          match divideGo pri g fuel (DivArg.main cls p1) st with
          | Except.error e => Except.error e
          | Except.ok ((ts, p2), st) =>
            match ts with
            | [t] => divideGo pri g fuel (DivArg.loop (trees ++ [t]) s p2) st
            | _ => Except.error Err.indexError
      else Except.ok ((trees, p), st)

/-- `md_tree` under the pivot policy `pri`: run the recursion on
`V(G)` and the empty partition, returning the root of the computed
tree together with the final heap. -/
def mdTree (pri : List Nat) (fuel : Nat) (g : Graph) : Except Err (Nat × St) :=
  let init : St := { vs := g.verts.map (fun v => (v, {})), arena := [] }
  match divideGo pri g fuel (DivArg.main g.verts []) init with
  | Except.error e => Except.error e
  | Except.ok ((ts, _), st) =>
    match ts with
    | [t] => Except.ok (t, st)
    | _ => Except.error Err.indexError

/-! ## Checkers for the specified output invariants

These encode the spec's quantified invariants (§8) for a finished run:
the module property, the exact leaf multiset, the absence of
same-typed degenerate chains, and the minimal child count. -/

/-- Insertion sort, to compare vertex lists as multisets. -/
def isort : List Nat → List Nat
  | [] => []
  | x :: xs => insSorted x (isort xs)
where
  /-- Insert into a sorted list. -/
  insSorted (x : Nat) : List Nat → List Nat
    | [] => [x]
    | y :: ys => if x ≤ y then x :: y :: ys else y :: insSorted x ys

/-- Equality of two lists of naturals. -/
def listEqN : List Nat → List Nat → Bool
  | [], [] => true
  | x :: xs, y :: ys => x = y && listEqN xs ys
  | _, _ => false

/-- The internal (non-leaf) nodes of the tree rooted at `root`. -/
def internals (ar : Arena) (fl root : Nat) : List Nat :=
  (dfs ar fl root).filter (fun i =>
    match (tnOf ar i).ty with
    | Ty.node => false
    | _ => true)

/-- The module property for every internal node `u`: every vertex of
`g` outside `u`'s leaf set is adjacent to all of it or to none. -/
def moduleOK (g : Graph) (ar : Arena) (fl root : Nat) : Bool :=
  (internals ar fl root).all (fun u =>
    let lv := leafVertsOf ar fl u
    (g.verts.filter (fun w => !smem w lv)).all (fun w =>
      lv.all (fun v => smem v (g.adj w)) || lv.all (fun v => !smem v (g.adj w))))

/-- The leaf multiset of the tree equals `V(G)`. -/
def leavesExact (g : Graph) (ar : Arena) (fl root : Nat) : Bool :=
  listEqN (isort (leafVertsOf ar fl root)) (isort g.verts)

/-- No child has the same type as its parent when the child is
degenerate (no `SERIES` under `SERIES`, no `PARALLEL` under
`PARALLEL`). -/
def noChain (ar : Arena) (fl root : Nat) : Bool :=
  (dfs ar fl root).all (fun n =>
    (tnOf ar n).children.all (fun c =>
      !((match (tnOf ar c).ty, (tnOf ar n).ty with
         | Ty.series, Ty.series => true
         | Ty.parallel, Ty.parallel => true
         | _, _ => false) && degenerate (tnOf ar c))))

/-- Every internal node has at least two children. -/
def minChildren (ar : Arena) (fl root : Nat) : Bool :=
  (internals ar fl root).all (fun u => (tnOf ar u).children.length ≥ 2)

/-- Whether some internal node's leaf set is exactly `lv` (sorted). -/
def hasInternalLeaves (ar : Arena) (fl root : Nat) (lv : List Nat) : Bool :=
  (internals ar fl root).any (fun u => listEqN (isort (leafVertsOf ar fl u)) lv)

/-- Whether `mdTree` returns a tree at all. -/
def mdOk (pri : List Nat) (fuel : Nat) (g : Graph) : Bool :=
  match mdTree pri fuel g with
  | Except.error _ => false
  | Except.ok _ => true

/-- The module property of the tree `mdTree` returns (`false` also
when the run fails). -/
def mdModuleProperty (pri : List Nat) (fuel : Nat) (g : Graph) : Bool :=
  match mdTree pri fuel g with
  | Except.error _ => false
  | Except.ok (root, st) => moduleOK g st.arena (st.arena.length + 1) root

/-- The leaf-multiset invariant of the tree `mdTree` returns. -/
def mdLeavesExact (pri : List Nat) (fuel : Nat) (g : Graph) : Bool :=
  match mdTree pri fuel g with
  | Except.error _ => false
  | Except.ok (root, st) => leavesExact g st.arena (st.arena.length + 1) root

/-- The no-same-type-chain invariant of the tree `mdTree` returns. -/
def mdNoChain (pri : List Nat) (fuel : Nat) (g : Graph) : Bool :=
  match mdTree pri fuel g with
  | Except.error _ => false
  | Except.ok (root, st) => noChain st.arena (st.arena.length + 1) root

/-- The two-children invariant of the tree `mdTree` returns. -/
def mdMinChildren (pri : List Nat) (fuel : Nat) (g : Graph) : Bool :=
  match mdTree pri fuel g with
  | Except.error _ => false
  | Except.ok (root, st) => minChildren st.arena (st.arena.length + 1) root

/-- Whether the tree `mdTree` returns has an internal node whose leaf
set is `lv`. -/
def mdHasInternalLeaves (pri : List Nat) (fuel : Nat) (g : Graph) (lv : List Nat) : Bool :=
  match mdTree pri fuel g with
  | Except.error _ => false
  | Except.ok (root, st) => hasInternalLeaves st.arena (st.arena.length + 1) root lv

/-- The scratch state of vertex `v` after a successful `mdTree` run
(the initial `VState` when the run fails). -/
def finalVs (pri : List Nat) (fuel : Nat) (g : Graph) (v : Nat) : VState :=
  match mdTree pri fuel g with
  | Except.error _ => {}
  | Except.ok (_, st) => vsOf st.vs v

/-! ## Concrete inputs for the claims -/

/-- The 6-vertex graph `1–4, 1–5, 1–6, 2–4, 2–6, 3–5`: the smallest
input (over all graphs with at most 6 vertices were checked during
this development) on which the pivot policy `[1,…,6]` produces a tree
violating the module property. -/
def gModuleBug : Graph :=
  Graph.build [1, 2, 3, 4, 5, 6] [(1,4), (1,5), (1,6), (2,4), (2,6), (3,5)]

/-- The 7-vertex graph `1–4, 1–5, 1–6, 1–7, 2–6, 2–7, 3–4, 3–5`, on
which the final merge scan leaves a `PARALLEL` node under a `PARALLEL`
parent. -/
def gChainBug : Graph :=
  Graph.build [1, 2, 3, 4, 5, 6, 7]
    [(1,4), (1,5), (1,6), (1,7), (2,6), (2,7), (3,4), (3,5)]

/-- The spec's scenario B6: a triangle `{1,2,3}` plus the isolated
vertex `4`. -/
def gB6 : Graph := Graph.build [1, 2, 3, 4] [(1,2), (1,3), (2,3)]

/-- The two-vertex graph with one edge (the spec's scenario B3). -/
def gK2 : Graph := Graph.build [1, 2] [(1,2)]

/-- All permutations of a list (pivot priority orders). -/
def perms : List Nat → List (List Nat)
  | [] => [[]]
  | x :: xs =>
    ((perms xs).map (fun p =>
      (List.range (p.length + 1)).map (fun i => p.take i ++ [x] ++ p.drop i))).flatten

/-- The B6 oracle: a `PARALLEL` root with exactly two children, one
the leaf `4` and the other a `SERIES` node whose children are the
leaves `1, 2, 3`. -/
def b6ok (pri : List Nat) : Bool :=
  match mdTree pri 300 gB6 with
  | Except.error _ => false
  | Except.ok (root, st) =>
    let ar := st.arena
    match (tnOf ar root).ty, (tnOf ar root).children with
    | Ty.parallel, [c1, c2] =>
      let isLeaf4 := fun (c : Nat) =>
        match (tnOf ar c).ty, (tnOf ar c).vertex, (tnOf ar c).children with
        | Ty.node, some 4, [] => true
        | _, _, _ => false
      let isSeries123 := fun (c : Nat) =>
        match (tnOf ar c).ty with
        | Ty.series =>
          (tnOf ar c).children.all (fun l =>
            match (tnOf ar l).ty, (tnOf ar l).children with
            | Ty.node, [] => true
            | _, _ => false) &&
          listEqN (isort (leafVertsOf ar (ar.length + 1) c)) [1, 2, 3]
        | _ => false
      (isLeaf4 c1 && isSeries123 c2) || (isLeaf4 c2 && isSeries123 c1)
    | _, _ => false

/-- Whether an `Except` result is the given error. -/
def errEq {α : Type} : Except Err α → Err → Bool
  | Except.error e, e' => e = e'
  | Except.ok _, _ => false

/-- Whether a read log contains the entry `(side, i)`. -/
def logHas : ReadLog → Bool → Int → Bool
  | [], _, _ => false
  | e :: es, side, i =>
    if e.1 = side ∧ e.2 = i then true else logHas es side i

/-- Symmetry of the adjacency relation of a graph. -/
def symAdj (g : Graph) : Prop :=
  ∀ u v, (smem v (Graph.adj g u) = true ↔ smem u (Graph.adj g v) = true)

/-! ## Claim theorems -/

set_option maxRecDepth 1000000

/-- C10: calling `Partition.pop_first` on an empty partition (`head is
None`) returns `None` and leaves the partition empty, rather than
raising an error. -/
theorem popFirst_empty_returns_none : Partition.popFirst [] = (none, []) := rfl

/-- C7 counterexample: running `md_tree` on the empty graph does fail,
but with an (uncaught) `StopIteration` from `next(iter(s))` at pivot
selection — not with an `EmptyGraph` error, which exists nowhere in
the source. -/
theorem mdTree_empty_fails_with_stopIteration_not_emptyGraph :
    mdTree [] 300 ([] : Graph) = Except.error Err.stopIteration ∧
    Err.stopIteration ≠ Err.emptyGraph :=
  ⟨rfl, by decide⟩

/-- C7 amended: for every pivot policy and every positive fuel,
`md_tree` on the empty graph fails with `StopIteration` (raised by
`next(iter(s))` on the empty pivot set); no partial result is ever
returned. -/
theorem mdTree_empty_raises_stopIteration (pri : List Nat) (fuel : Nat) :
    mdTree pri (fuel + 1) ([] : Graph) = Except.error Err.stopIteration := by
  have h : choosePivot pri [] = none := by cases pri <;> rfl
  simp [mdTree, Graph.verts, divideGo, h]

/-- C6 counterexample: after `md_tree` on the two-vertex graph with an
edge (pivot order `[1,2]`), vertex `2`'s `active_alpha` still holds
the pivot `1` — it is not cleared, hence not empty on return — and its
`container` is still set. -/
theorem mdTree_K2_active_alpha_not_reset :
    (finalVs [1,2] 300 gK2 2).activeAlpha = [1] ∧
    (finalVs [1,2] 300 gK2 2).container ≠ none ∧
    mdOk [1,2] 300 gK2 = true := by decide

/-- C6 amended: `md_tree` consumes `alpha` (empty on return for this
input) but never resets `active_alpha` or `container`: on the
two-vertex graph with an edge, under either pivot order, the
non-pivot vertex returns with `active_alpha = {pivot}` and both
vertices keep their `container` links. -/
theorem mdTree_K2_scratch_leftovers :
    ((finalVs [1,2] 300 gK2 2).activeAlpha = [1] ∧
     (finalVs [2,1] 300 gK2 1).activeAlpha = [2] ∧
     (finalVs [1,2] 300 gK2 1).alpha = [] ∧
     (finalVs [1,2] 300 gK2 2).alpha = [] ∧
     (finalVs [1,2] 300 gK2 1).container ≠ none ∧
     (finalVs [1,2] 300 gK2 2).container ≠ none ∧
     mdOk [1,2] 300 gK2 = true ∧ mdOk [2,1] 300 gK2 = true) := by decide

/-- C8 counterexample: a single `add_edge(0, 0)` call (allowed by the
claim, which covers `u_id = v_id`) puts `0` into its own adjacency
set, so "never contains `self`" fails. -/
theorem addEdge_self_loop :
    smem 0 (Graph.adj (Graph.addEdge [] 0 0) 0) = true := by decide

/-- C1: `md_tree` can return a tree violating the module property.
On the 6-vertex graph `1–4, 1–5, 1–6, 2–4, 2–6, 3–5` with pivot
policy `[1,…,6]`, the run succeeds and returns a tree with an internal
(`PARALLEL`) node whose leaf set is `{4,5,6}`, yet vertex `2` is
adjacent to `4` and not to `5`, so `{4,5,6}` is not a module: the
module-property checker rejects the output. -/
theorem mdTree_module_property_violated :
    mdOk [1,2,3,4,5,6] 600 gModuleBug = true ∧
    mdModuleProperty [1,2,3,4,5,6] 600 gModuleBug = false ∧
    mdHasInternalLeaves [1,2,3,4,5,6] 600 gModuleBug [4,5,6] = true ∧
    smem 4 (Graph.adj gModuleBug 2) = true ∧
    smem 5 (Graph.adj gModuleBug 2) = false := by decide

/-- C4: the final tree can contain a `PARALLEL` node with a `PARALLEL`
parent.  On the 7-vertex graph `1–4, 1–5, 1–6, 1–7, 2–6, 2–7, 3–4,
3–5` with pivot policy `[1,…,7]`, the run succeeds but the merge scan
of `conquer_md_tree` — which removes a node from the children list it
is concurrently iterating — skips the sibling that shifts into the
freed position, leaving a same-typed degenerate chain. -/
theorem mdTree_same_type_chain_survives :
    mdOk [1,2,3,4,5,6,7] 900 gChainBug = true ∧
    mdNoChain [1,2,3,4,5,6,7] 900 gChainBug = false := by
  constructor
  · decide
  · decide

/-- C9: on the disjoint union of the triangle `{1,2,3}` and the
isolated vertex `4`, for every pivot priority order, `md_tree` returns
a `PARALLEL` root whose two children are a `SERIES` node with leaves
`{1,2,3}` and the leaf `4`. -/
theorem mdTree_B6_all_pivots :
    (perms [1, 2, 3, 4]).all b6ok = true := by decide

/-- C3 counterexample: a pivot factorizing permutation with `a = 1`
co-component and `b = 2` components whose `μ`/`ρ` values all satisfy
the claimed bounds (`μ(C') ∈ [0,b]`, `μ(C) ∈ [0,a]`, `ρ(C) ∈ [0,b]`),
on which the `PRIME` branch of `build_spine` evaluates
`sigma.co_components[l - 1]` with `l = 2 > a`: the read log records
the subscript `(co_components, 2)` and the run raises `IndexError`,
so not every index used stays within `[1, a]`. -/
theorem buildSpine_index_out_of_range :
    logHas (spineSteps [0] [(0, 0), (0, 0)] 50).1 true 2 = true ∧
    errEq (spineSteps [0] [(0, 0), (0, 0)] 50).2 Err.indexError = true ∧
    ([(0 : Int)].all (fun mu => 0 ≤ mu ∧ mu ≤ 2) = true) ∧
    ([((0 : Int), (0 : Int)), (0, 0)].all
      (fun c => (0 ≤ c.1 ∧ c.1 ≤ 1) ∧ (0 ≤ c.2 ∧ c.2 ≤ 2)) = true) := by decide

/-! ## Lemmas for the `add_edge` invariants (claim C8) -/

theorem smem_append (y : Nat) (xs zs : List Nat) :
    smem y (xs ++ zs) = (smem y xs || smem y zs) := by
  induction xs with
  | nil => simp [smem]
  | cons x xs ih => by_cases h : y = x <;> simp [smem, h, ih]

theorem smem_sadd (y x : Nat) (xs : List Nat) :
    smem y (sadd xs x) = true ↔ (smem y xs = true ∨ y = x) := by
  unfold sadd
  by_cases h : smem x xs
  · simp only [h, if_true]
    constructor
    · exact fun hy => Or.inl hy
    · rintro (hy | rfl)
      · exact hy
      · exact h
  · simp only [h, Bool.false_eq_true, if_false, smem_append]
    by_cases hyx : y = x <;> simp [smem, hyx]

theorem adj_append_new (g : Graph) (a u : Nat) :
    Graph.adj (g ++ [(a, [])]) u = Graph.adj g u := by
  induction g with
  | nil => by_cases h : a = u <;> simp [Graph.adj, h]
  | cons p ps ih => by_cases h : p.1 = u <;> simp [Graph.adj, h, ih]

theorem adj_addNode (g : Graph) (a u : Nat) :
    Graph.adj (Graph.addNode g a) u = Graph.adj g u := by
  unfold Graph.addNode
  by_cases h : g.hasNode a <;> simp [h, adj_append_new]

theorem hasNode_append_new (g : Graph) (a b : Nat) :
    Graph.hasNode (g ++ [(a, [])]) b = (Graph.hasNode g b || decide (a = b)) := by
  induction g with
  | nil => by_cases h : a = b <;> simp [Graph.hasNode, h]
  | cons p ps ih => by_cases h : p.1 = b <;> simp [Graph.hasNode, h, ih]

theorem hasNode_addNode_self (g : Graph) (a : Nat) :
    Graph.hasNode (Graph.addNode g a) a = true := by
  unfold Graph.addNode
  by_cases h : g.hasNode a <;> simp [h, hasNode_append_new]

theorem hasNode_addNode_mono (g : Graph) (a b : Nat) (h : Graph.hasNode g b = true) :
    Graph.hasNode (Graph.addNode g a) b = true := by
  unfold Graph.addNode
  by_cases ha : g.hasNode a <;> simp [ha, hasNode_append_new, h]

theorem adj_addNeighbor (g : Graph) (a v u : Nat) :
    Graph.adj (Graph.addNeighbor g a v) u =
      if u = a ∧ Graph.hasNode g a = true then sadd (Graph.adj g a) v
      else Graph.adj g u := by
  induction g with
  | nil => simp [Graph.addNeighbor, Graph.adj, Graph.hasNode]
  | cons p ps ih =>
    by_cases h1 : p.1 = a
    · by_cases h2 : u = a
      · simp [Graph.addNeighbor, Graph.adj, Graph.hasNode, h1, h2, h1.trans h2.symm]
      · have hpu : ¬p.1 = u := fun hc => h2 (hc.symm.trans h1)
        have hau : ¬a = u := fun hc => h2 hc.symm
        simp [Graph.addNeighbor, Graph.adj, Graph.hasNode, h1, h2, hpu, hau]
    · by_cases h2 : p.1 = u
      · have hua : ¬(u = a ∧ Graph.hasNode (p :: ps) a = true) := by
          rintro ⟨rfl, _⟩
          exact h1 h2
        have hu : ¬u = a := fun hc => h1 (h2.symm ▸ hc)
        simp [Graph.addNeighbor, Graph.adj, h1, h2, hua, hu]
      · simp [Graph.addNeighbor, Graph.adj, Graph.hasNode, h1, h2, ih]

theorem hasNode_addNeighbor (g : Graph) (a v b : Nat) :
    Graph.hasNode (Graph.addNeighbor g a v) b = Graph.hasNode g b := by
  induction g with
  | nil => simp [Graph.addNeighbor]
  | cons p ps ih =>
    by_cases h1 : p.1 = a
    · by_cases h2 : p.1 = b <;>
        simp [Graph.addNeighbor, Graph.hasNode, h1, h2, ih]
    · by_cases h2 : p.1 = b
      · have hba : ¬b = a := fun hc => h1 (h2.symm ▸ hc.symm ▸ rfl)
        simp [Graph.addNeighbor, Graph.hasNode, h1, h2, hba]
      · simp [Graph.addNeighbor, Graph.hasNode, h1, h2, ih]

/-- Membership in adjacency after one `add_edge`: the old edges plus
the two directions of the new one. -/
theorem mem_adj_addEdge (g : Graph) (a b x y : Nat) :
    smem y (Graph.adj (Graph.addEdge g a b) x) = true ↔
      (smem y (Graph.adj g x) = true ∨ (x = a ∧ y = b) ∨ (x = b ∧ y = a)) := by
  unfold Graph.addEdge
  have hha : Graph.hasNode (Graph.addNode (Graph.addNode g a) b) a = true :=
    hasNode_addNode_mono _ _ _ (hasNode_addNode_self g a)
  have hhb : Graph.hasNode (Graph.addNode (Graph.addNode g a) b) b = true :=
    hasNode_addNode_self _ b
  by_cases hab : a = b
  · subst hab
    by_cases hxa : x = a
    · subst hxa
      simp only [adj_addNeighbor, hasNode_addNeighbor, hha, and_true, if_true,
        eq_self_iff_true, true_iff, adj_addNode, smem_sadd, and_self]
      tauto
    · simp only [adj_addNeighbor, hasNode_addNeighbor, hha, and_true, hxa,
        if_false, adj_addNode]
      tauto
  · by_cases hxb : x = b
    · subst hxb
      have hba : ¬(x = a) := fun hc => hab (hc.symm)
      simp only [adj_addNeighbor, hasNode_addNeighbor, hhb, hba, and_true,
        if_true, if_false, false_and, adj_addNode, smem_sadd,
        eq_self_iff_true, true_and]
      tauto
    · by_cases hxa : x = a
      · subst hxa
        have hxab : ¬(x = b) := hxb
        simp only [adj_addNeighbor, hasNode_addNeighbor, hha, hxab, and_true,
          if_true, if_false, false_and, adj_addNode, smem_sadd,
          eq_self_iff_true, true_and]
        tauto
      · simp only [adj_addNeighbor, hasNode_addNeighbor, hxa, hxb, false_and,
          if_false, adj_addNode]
        tauto

theorem symAdj_addEdge {g : Graph} (h : symAdj g) (a b : Nat) :
    symAdj (Graph.addEdge g a b) := by
  intro u v
  rw [mem_adj_addEdge, mem_adj_addEdge]
  constructor
  · rintro (hm | ⟨rfl, rfl⟩ | ⟨rfl, rfl⟩)
    · exact Or.inl ((h u v).1 hm)
    · exact Or.inr (Or.inr ⟨rfl, rfl⟩)
    · exact Or.inr (Or.inl ⟨rfl, rfl⟩)
  · rintro (hm | ⟨rfl, rfl⟩ | ⟨rfl, rfl⟩)
    · exact Or.inl ((h v u).1 hm)
    · exact Or.inr (Or.inr ⟨rfl, rfl⟩)
    · exact Or.inr (Or.inl ⟨rfl, rfl⟩)

theorem irr_addEdge {g : Graph} (h : ∀ u, smem u (Graph.adj g u) = false)
    {a b : Nat} (hab : a ≠ b) :
    ∀ u, smem u (Graph.adj (Graph.addEdge g a b) u) = false := by
  intro u
  rw [← Bool.not_eq_true]
  intro hu
  rcases (mem_adj_addEdge g a b u u).1 hu with hm | ⟨rfl, rfl⟩ | ⟨rfl, rfl⟩
  · rw [h u] at hm
    exact Bool.false_ne_true hm
  · exact hab rfl
  · exact hab rfl

theorem foldl_addEdge_sym (es : List (Nat × Nat)) :
    ∀ g, symAdj g →
      symAdj (es.foldl (fun g e => Graph.addEdge g e.1 e.2) g) := by
  induction es with
  | nil => exact fun g h => h
  | cons e es ih => exact fun g h => ih _ (symAdj_addEdge h e.1 e.2)

theorem foldl_addEdge_irr (es : List (Nat × Nat)) :
    ∀ g, (∀ p ∈ es, p.1 ≠ p.2) → (∀ u, smem u (Graph.adj g u) = false) →
      ∀ u, smem u (Graph.adj
        (es.foldl (fun g e => Graph.addEdge g e.1 e.2) g) u) = false := by
  induction es with
  | nil => exact fun g _ h => h
  | cons e es ih =>
    intro g hes h
    exact ih _ (fun p hp => hes p (List.mem_cons_of_mem e hp))
      (irr_addEdge h (hes e (List.mem_cons_self e es)))

/-- C8 amended: after any sequence of `add_edge` calls the adjacency
relation is symmetric (`v ∈ u.adjacent ⇔ u ∈ v.adjacent`), and —
provided no call passed `u_id = v_id` — no vertex's adjacency set
contains the vertex itself. -/
theorem addEdge_symmetric_and_irreflexive (es : List (Nat × Nat)) :
    (∀ u v, (smem v (Graph.adj (Graph.ofEdges es) u) = true ↔
             smem u (Graph.adj (Graph.ofEdges es) v) = true)) ∧
    ((∀ p ∈ es, p.1 ≠ p.2) →
      ∀ u, smem u (Graph.adj (Graph.ofEdges es) u) = false) := by
  constructor
  · exact foldl_addEdge_sym es [] (fun u v => by simp [Graph.adj, smem])
  · exact fun hes =>
      foldl_addEdge_irr es [] hes (fun u => by simp [Graph.adj, smem])

/-- Witness for the hypotheses of `addEdge_symmetric_and_irreflexive`
at the concrete edge sequence `(0,1), (1,2)`. -/
theorem addEdge_symmetric_and_irreflexive_witness :
    (∀ p ∈ [((0 : Nat), (1 : Nat)), (1, 2)], p.1 ≠ p.2) ∧
    (∀ u, smem u (Graph.adj (Graph.ofEdges [(0, 1), (1, 2)]) u) = false) :=
  ⟨by decide, (addEdge_symmetric_and_irreflexive [(0, 1), (1, 2)]).2 (by decide)⟩

theorem readMany_log_mem {α : Type} (side : Bool) (xs : List α) :
    ∀ idxs, ∀ e ∈ (readMany side xs idxs).1, e.1 = side ∧ e.2 ∈ idxs := by
  intro idxs
  induction idxs with
  | nil => intro e he; simp [readMany] at he
  | cons i rest ih =>
    intro e he
    simp only [readMany] at he
    cases hidx : pyIdx xs (i - 1) with
    | error err =>
      rw [hidx] at he
      simp only [List.mem_singleton] at he
      subst he
      exact ⟨rfl, List.mem_cons_self i rest⟩
    | ok v =>
      rw [hidx] at he
      rcases hrm : readMany side xs rest with ⟨lg, res⟩
      rw [hrm] at he
      simp only [List.mem_cons] at he
      rcases he with rfl | htail
      · exact ⟨rfl, List.mem_cons_self i rest⟩
      · have := ih e (by rw [hrm]; exact htail)
        exact ⟨this.1, List.mem_cons_of_mem i this.2⟩

theorem intRange_mem_lb {lo hi i : Int} (h : i ∈ intRange lo hi) : lo ≤ i := by
  unfold intRange at h
  simp only [List.mem_map, List.mem_range] at h
  obtain ⟨k, _, rfl⟩ := h
  have hk : (0 : Int) ≤ Int.ofNat k := Int.natCast_nonneg k
  omega

theorem seriesLoop_log (co : List Int) (r : Int) :
    ∀ fuel l m, 1 ≤ l → ∀ e ∈ (seriesLoop co r fuel l m).1, 1 ≤ e.2 := by
  intro fuel
  induction fuel with
  | zero => intro l m _ e he; simp [seriesLoop] at he
  | succ fuel ih =>
    intro l m hl e he
    simp only [seriesLoop] at he
    by_cases hle : l ≤ Int.ofNat co.length
    · rw [if_pos hle] at he
      cases hidx : pyIdx co (l - 1) with
      | error err =>
        rw [hidx] at he
        simp only [List.mem_singleton] at he
        subst he
        exact hl
      | ok mu =>
        rw [hidx] at he
        simp only [] at he
        by_cases hmu : mu = r
        · rw [if_pos hmu] at he
          rcases hsl : seriesLoop co r fuel (l + 1) (m ++ [(true, l)]) with ⟨lg, res⟩
          rw [hsl] at he
          simp only [List.mem_cons] at he
          rcases he with rfl | rfl | htail
          · exact hl
          · exact hl
          · exact ih (l + 1) (m ++ [(true, l)]) (by omega) e (by rw [hsl]; exact htail)
        · rw [if_neg hmu] at he
          simp only [List.mem_singleton] at he
          subst he
          exact hl
    · rw [if_neg hle] at he
      simp at he

theorem seriesLoop_ge (co : List Int) (r : Int) :
    ∀ fuel l m lEnd m', (seriesLoop co r fuel l m).2 = Except.ok (lEnd, m') →
      l ≤ lEnd := by
  intro fuel
  induction fuel with
  | zero => intro l m lEnd m' h; simp [seriesLoop] at h
  | succ fuel ih =>
    intro l m lEnd m' h
    simp only [seriesLoop] at h
    by_cases hle : l ≤ Int.ofNat co.length
    · rw [if_pos hle] at h
      cases hidx : pyIdx co (l - 1) with
      | error err => rw [hidx] at h; simp at h
      | ok mu =>
        rw [hidx] at h
        simp only [] at h
        by_cases hmu : mu = r
        · rw [if_pos hmu] at h
          simp only at h
          have := ih (l + 1) (m ++ [(true, l)]) lEnd m' h
          omega
        · rw [if_neg hmu] at h
          simp only [Except.ok.injEq, Prod.mk.injEq] at h
          omega
    · rw [if_neg hle] at h
      simp only [Except.ok.injEq, Prod.mk.injEq] at h
      omega



theorem parallelLoop_log (cs : List (Int × Int)) (l : Int) :
    ∀ fuel r m, 1 ≤ r → ∀ e ∈ (parallelLoop cs l fuel r m).1, 1 ≤ e.2 := by
  intro fuel
  induction fuel with
  | zero => intro r m _ e he; simp [parallelLoop] at he
  | succ fuel ih =>
    intro r m hr e he
    simp only [parallelLoop] at he
    by_cases hle : r ≤ Int.ofNat cs.length
    · rw [if_pos hle] at he
      cases hidx : pyIdx cs (r - 1) with
      | error err =>
        rw [hidx] at he
        simp only [List.mem_singleton] at he
        subst he
        exact hr
      | ok v =>
        rw [hidx] at he
        simp only [] at he
        by_cases hmu : v.1 = l
        · rw [if_pos hmu] at he
          by_cases hrho : v.2 = 0
          · rw [if_pos hrho] at he
            rcases hsl : parallelLoop cs l fuel (r + 1) (m ++ [(false, r)]) with ⟨lg, res⟩
            rw [hsl] at he
            simp only [List.mem_cons] at he
            rcases he with rfl | rfl | rfl | htail
            · exact hr
            · exact hr
            · exact hr
            · exact ih (r + 1) (m ++ [(false, r)]) (by omega) e (by rw [hsl]; exact htail)
          · rw [if_neg hrho] at he
            have heq : e = (false, r) := by simpa using he
            subst heq
            exact hr
        · rw [if_neg hmu] at he
          simp only [List.mem_singleton] at he
          subst he
          exact hr
    · rw [if_neg hle] at he
      simp at he

theorem parallelLoop_ge (cs : List (Int × Int)) (l : Int) :
    ∀ fuel r m rEnd m', (parallelLoop cs l fuel r m).2 = Except.ok (rEnd, m') →
      r ≤ rEnd := by
  intro fuel
  induction fuel with
  | zero => intro r m rEnd m' h; simp [parallelLoop] at h
  | succ fuel ih =>
    intro r m rEnd m' h
    simp only [parallelLoop] at h
    by_cases hle : r ≤ Int.ofNat cs.length
    · rw [if_pos hle] at h
      cases hidx : pyIdx cs (r - 1) with
      | error err => rw [hidx] at h; simp at h
      | ok v =>
        rw [hidx] at h
        simp only [] at h
        by_cases hmu : v.1 = l
        · rw [if_pos hmu] at h
          by_cases hrho : v.2 = 0
          · rw [if_pos hrho] at h
            simp only at h
            have := ih (r + 1) (m ++ [(false, r)]) rEnd m' h
            omega
          · rw [if_neg hrho] at h
            simp only [Except.ok.injEq, Prod.mk.injEq] at h
            omega
        · rw [if_neg hmu] at h
          simp only [Except.ok.injEq, Prod.mk.injEq] at h
          omega
    · rw [if_neg hle] at h
      simp only [Except.ok.injEq, Prod.mk.injEq] at h
      omega



theorem primeInner_log (co : List Int) (cs : List (Int × Int)) :
    ∀ fuel l_ r_ t m, 1 ≤ l_ → 1 ≤ r_ → 1 ≤ t → 1 ≤ m →
      ∀ e ∈ (primeInner co cs fuel l_ r_ t m).1, 1 ≤ e.2 := by
  intro fuel
  induction fuel with
  | zero => intro l_ r_ t m _ _ _ _ e he; simp [primeInner] at he
  | succ fuel ih =>
    intro l_ r_ t m hl hr ht hm e he
    simp only [primeInner] at he
    rcases h1 : readMany false cs (intRange r_ m) with ⟨lg1, res1⟩
    rw [h1] at he
    have hlg1 : ∀ x ∈ lg1, 1 ≤ x.2 := fun x hx =>
      le_trans hr (intRange_mem_lb
        (readMany_log_mem false cs (intRange r_ m) x (by rw [h1]; exact hx)).2)
    cases res1 with
    | error e1 =>
      simp only [] at he
      exact hlg1 e he
    | ok vs1 =>
      simp only [] at he
      cases h2 : pyMax (vs1.map (·.1)) with
      | error e2 =>
        rw [h2] at he
        simp only [] at he
        exact hlg1 e he
      | ok mx1 =>
        rw [h2] at he
        simp only [] at he
        rcases h3 : readMany true co (intRange l_ (max mx1 t)) with ⟨lg2, res2⟩
        rw [h3] at he
        have hlg2 : ∀ x ∈ lg2, 1 ≤ x.2 := fun x hx =>
          le_trans hl (intRange_mem_lb
            (readMany_log_mem true co (intRange l_ (max mx1 t)) x (by rw [h3]; exact hx)).2)
        cases res2 with
        | error e3 =>
          simp only [] at he
          rcases List.mem_append.1 he with hx | hx
          · exact hlg1 e hx
          · exact hlg2 e hx
        | ok vs2 =>
          simp only [] at he
          cases h4 : pyMax vs2 with
          | error e4 =>
            rw [h4] at he
            simp only [] at he
            rcases List.mem_append.1 he with hx | hx
            · exact hlg1 e hx
            · exact hlg2 e hx
          | ok mx2 =>
            rw [h4] at he
            simp only [] at he
            cases h6 : pyMax (vs1.map (·.2)) with
            | error e6 =>
              rw [h6] at he
              simp only [] at he
              rcases List.mem_append.1 he with hx | hx
              · rcases List.mem_append.1 hx with hy | hy
                · exact hlg1 e hy
                · exact hlg2 e hy
              · exact hlg1 e hx
            | ok mx3 =>
              rw [h6] at he
              simp only [] at he
              by_cases hfix : t = max mx1 t ∧ m = max (max mx2 mx3) m
              · rw [if_pos hfix] at he
                rcases List.mem_append.1 he with hx | hx
                · rcases List.mem_append.1 hx with hy | hy
                  · exact hlg1 e hy
                  · exact hlg2 e hy
                · exact hlg1 e hx
              · rw [if_neg hfix] at he
                rcases h7 : primeInner co cs fuel t m (max mx1 t) (max (max mx2 mx3) m)
                  with ⟨lg4, res4⟩
                rw [h7] at he
                simp only [] at he
                have hlg4 : ∀ x ∈ lg4, 1 ≤ x.2 := fun x hx =>
                  ih t m (max mx1 t) (max (max mx2 mx3) m) ht hm
                    (le_trans ht (le_max_right mx1 t))
                    (le_trans hm (le_max_right (max mx2 mx3) m)) x
                    (by rw [h7]; exact hx)
                rcases List.mem_append.1 he with hx | hx
                · rcases List.mem_append.1 hx with hy | hy
                  · rcases List.mem_append.1 hy with hz | hz
                    · exact hlg1 e hz
                    · exact hlg2 e hz
                  · exact hlg1 e hy
                · exact hlg4 e hx

theorem primeInner_ge (co : List Int) (cs : List (Int × Int)) :
    ∀ fuel l_ r_ t m t' m',
      (primeInner co cs fuel l_ r_ t m).2 = Except.ok (t', m') →
        t ≤ t' ∧ m ≤ m' := by
  intro fuel
  induction fuel with
  | zero => intro l_ r_ t m t' m' h; simp [primeInner] at h
  | succ fuel ih =>
    intro l_ r_ t m t' m' h
    simp only [primeInner] at h
    rcases h1 : readMany false cs (intRange r_ m) with ⟨lg1, res1⟩
    rw [h1] at h
    cases res1 with
    | error e1 => simp at h
    | ok vs1 =>
      simp only [] at h
      cases h2 : pyMax (vs1.map (·.1)) with
      | error e2 => rw [h2] at h; simp at h
      | ok mx1 =>
        rw [h2] at h
        simp only [] at h
        rcases h3 : readMany true co (intRange l_ (max mx1 t)) with ⟨lg2, res2⟩
        rw [h3] at h
        cases res2 with
        | error e3 => simp at h
        | ok vs2 =>
          simp only [] at h
          cases h4 : pyMax vs2 with
          | error e4 => rw [h4] at h; simp at h
          | ok mx2 =>
            rw [h4] at h
            simp only [] at h
            cases h6 : pyMax (vs1.map (·.2)) with
            | error e6 => rw [h6] at h; simp at h
            | ok mx3 =>
              rw [h6] at h
              simp only [] at h
              by_cases hfix : t = max mx1 t ∧ m = max (max mx2 mx3) m
              · rw [if_pos hfix] at h
                simp only [Except.ok.injEq, Prod.mk.injEq] at h
                constructor
                · rw [← h.1]; exact le_max_right mx1 t
                · rw [← h.2]; exact le_max_right (max mx2 mx3) m
              · rw [if_neg hfix] at h
                rcases h7 : primeInner co cs fuel t m (max mx1 t) (max (max mx2 mx3) m)
                  with ⟨lg4, res4⟩
                rw [h7] at h
                simp only [] at h
                have := ih t m (max mx1 t) (max (max mx2 mx3) m) t' m' (by rw [h7]; exact h)
                exact ⟨le_trans (le_max_right mx1 t) this.1,
                  le_trans (le_max_right (max mx2 mx3) m) this.2⟩



theorem primeStep_log (co : List Int) (cs : List (Int × Int)) (fuel : Nat)
    (l r : Int) (hl : 0 ≤ l) (hr : 0 ≤ r) :
    ∀ e ∈ (primeStep co cs fuel l r).1, 1 ≤ e.2 := by
  intro e he
  simp only [primeStep] at he
  cases ha : pyIdx cs (r + 1 - 1) with
  | error e1 =>
    rw [ha] at he
    simp only [List.mem_singleton] at he
    subst he
    omega
  | ok vr =>
    rw [ha] at he
    simp only [] at he
    cases hb : pyIdx co (l + 1 - 1) with
    | error e2 =>
      rw [hb] at he
      simp only [List.mem_cons, List.mem_singleton, List.mem_nil_iff, or_false] at he
      rcases he with rfl | rfl
      · omega
      · omega
    | ok muL =>
      rw [hb] at he
      simp only [] at he
      rcases hc : primeInner co cs fuel (l + 1) (r + 1) (max vr.1 (l + 1))
          (max muL (max vr.2 (r + 1))) with ⟨lg1, res1⟩
      rw [hc] at he
      have hlg1 : ∀ x ∈ lg1, 1 ≤ x.2 := fun x hx =>
        primeInner_log co cs fuel (l + 1) (r + 1) (max vr.1 (l + 1))
          (max muL (max vr.2 (r + 1))) (by omega) (by omega)
          (le_trans (by omega) (le_max_right vr.1 (l + 1)))
          (le_trans (le_trans (by omega) (le_max_right vr.2 (r + 1)))
            (le_max_right muL (max vr.2 (r + 1)))) x (by rw [hc]; exact hx)
      cases res1 with
      | error e3 =>
        simp only [] at he
        rcases List.mem_append.1 he with hx | hx
        · simp only [List.mem_cons, List.mem_singleton, List.mem_nil_iff, or_false] at hx
          rcases hx with rfl | rfl | rfl <;> omega
        · exact hlg1 e hx
      | ok tm =>
        rcases tm with ⟨t', m'⟩
        simp only [] at he
        rcases hd : readMany true co (intRange (l + 1) t') with ⟨lgA, resA⟩
        rw [hd] at he
        have hlgA : ∀ x ∈ lgA, 1 ≤ x.2 := fun x hx =>
          le_trans (by omega) (intRange_mem_lb
            (readMany_log_mem true co (intRange (l + 1) t') x (by rw [hd]; exact hx)).2)
        cases resA with
        | error e4 =>
          simp only [] at he
          rcases List.mem_append.1 he with hx | hx
          · rcases List.mem_append.1 hx with hy | hy
            · simp only [List.mem_cons, List.mem_singleton, List.mem_nil_iff, or_false] at hy
              rcases hy with rfl | rfl | rfl <;> omega
            · exact hlg1 e hy
          · exact hlgA e hx
        | ok vsA =>
          simp only [] at he
          rcases hf : readMany false cs (intRange (r + 1) m') with ⟨lgB, resB⟩
          rw [hf] at he
          have hlgB : ∀ x ∈ lgB, 1 ≤ x.2 := fun x hx =>
            le_trans (by omega) (intRange_mem_lb
              (readMany_log_mem false cs (intRange (r + 1) m') x (by rw [hf]; exact hx)).2)
          cases resB with
          | error e5 =>
            simp only [] at he
            rcases List.mem_append.1 he with hx | hx
            · rcases List.mem_append.1 hx with hy | hy
              · rcases List.mem_append.1 hy with hz | hz
                · simp only [List.mem_cons, List.mem_singleton, List.mem_nil_iff, or_false] at hz
                  rcases hz with rfl | rfl | rfl <;> omega
                · exact hlg1 e hz
              · exact hlgA e hy
            · exact hlgB e hx
          | ok vsB =>
            simp only [] at he
            rcases List.mem_append.1 he with hx | hx
            · rcases List.mem_append.1 hx with hy | hy
              · rcases List.mem_append.1 hy with hz | hz
                · simp only [List.mem_cons, List.mem_singleton, List.mem_nil_iff, or_false] at hz
                  rcases hz with rfl | rfl | rfl <;> omega
                · exact hlg1 e hz
              · exact hlgA e hy
            · exact hlgB e hx

theorem primeStep_ok (co : List Int) (cs : List (Int × Int)) (fuel : Nat)
    (l r : Int) (hl : 0 ≤ l) (hr : 0 ≤ r) (mod : Module) (t' m' : Int)
    (h : (primeStep co cs fuel l r).2 = Except.ok (mod, t', m')) :
    1 ≤ t' ∧ 1 ≤ m' := by
  simp only [primeStep] at h
  cases ha : pyIdx cs (r + 1 - 1) with
  | error e1 => rw [ha] at h; simp at h
  | ok vr =>
    rw [ha] at h
    simp only [] at h
    cases hb : pyIdx co (l + 1 - 1) with
    | error e2 => rw [hb] at h; simp at h
    | ok muL =>
      rw [hb] at h
      simp only [] at h
      rcases hc : primeInner co cs fuel (l + 1) (r + 1) (max vr.1 (l + 1))
          (max muL (max vr.2 (r + 1))) with ⟨lg1, res1⟩
      rw [hc] at h
      cases res1 with
      | error e3 => simp at h
      | ok tm =>
        rcases tm with ⟨t'', m''⟩
        simp only [] at h
        have hge := primeInner_ge co cs fuel (l + 1) (r + 1) (max vr.1 (l + 1))
          (max muL (max vr.2 (r + 1))) t'' m'' (by rw [hc])
        rcases hd : readMany true co (intRange (l + 1) t'') with ⟨lgA, resA⟩
        rw [hd] at h
        cases resA with
        | error e4 => simp at h
        | ok vsA =>
          simp only [] at h
          rcases hf : readMany false cs (intRange (r + 1) m'') with ⟨lgB, resB⟩
          rw [hf] at h
          cases resB with
          | error e5 => simp at h
          | ok vsB =>
            simp only [Except.ok.injEq, Prod.mk.injEq] at h
            have ht : t' = t'' := h.2.1.symm
            have hm : m' = m'' := h.2.2.symm
            subst ht
            subst hm
            constructor
            · calc (1 : Int) ≤ l + 1 := by omega
                _ ≤ max vr.1 (l + 1) := le_max_right _ _
                _ ≤ t' := hge.1
            · calc (1 : Int) ≤ r + 1 := by omega
                _ ≤ max vr.2 (r + 1) := le_max_right _ _
                _ ≤ max muL (max vr.2 (r + 1)) := le_max_right _ _
                _ ≤ m' := hge.2



theorem spineIter_log (co : List Int) (cs : List (Int × Int)) (fuel : Nat)
    (l r : Int) (hl : 0 ≤ l) (hr : 0 ≤ r) :
    ∀ e ∈ (spineIter co cs fuel l r).1, 1 ≤ e.2 := by
  intro e he
  simp only [spineIter] at he
  rcases hS : seriesLoop co r fuel (l + 1) [] with ⟨lgS, resS⟩
  rw [hS] at he
  have hlgS : ∀ x ∈ lgS, 1 ≤ x.2 := fun x hx =>
    seriesLoop_log co r fuel (l + 1) [] (by omega) x (by rw [hS]; exact hx)
  cases resS with
  | error e1 =>
    simp only [] at he
    exact hlgS e he
  | ok p =>
    rcases p with ⟨lEnd, mS⟩
    simp only [] at he
    have hlEnd : l + 1 ≤ lEnd :=
      seriesLoop_ge co r fuel (l + 1) [] lEnd mS (by rw [hS])
    by_cases hms : mS ≠ []
    · rw [if_pos hms] at he
      exact hlgS e he
    · rw [if_neg hms] at he
      rcases hP : parallelLoop cs (lEnd - 1) fuel (r + 1) [] with ⟨lgP, resP⟩
      rw [hP] at he
      have hlgP : ∀ x ∈ lgP, 1 ≤ x.2 := fun x hx =>
        parallelLoop_log cs (lEnd - 1) fuel (r + 1) [] (by omega) x (by rw [hP]; exact hx)
      cases resP with
      | error e2 =>
        simp only [] at he
        rcases List.mem_append.1 he with hx | hx
        · exact hlgS e hx
        · exact hlgP e hx
      | ok q =>
        rcases q with ⟨rEnd, mP⟩
        simp only [] at he
        have hrEnd : r + 1 ≤ rEnd :=
          parallelLoop_ge cs (lEnd - 1) fuel (r + 1) [] rEnd mP (by rw [hP])
        by_cases hmp : mP ≠ []
        · rw [if_pos hmp] at he
          rcases List.mem_append.1 he with hx | hx
          · exact hlgS e hx
          · exact hlgP e hx
        · rw [if_neg hmp] at he
          rcases hQ : primeStep co cs fuel (lEnd - 1) (rEnd - 1) with ⟨lgQ, resQ⟩
          rw [hQ] at he
          simp only [] at he
          have hlgQ : ∀ x ∈ lgQ, 1 ≤ x.2 := fun x hx =>
            primeStep_log co cs fuel (lEnd - 1) (rEnd - 1) (by omega) (by omega) x
              (by rw [hQ]; exact hx)
          rcases List.mem_append.1 he with hx | hx
          · rcases List.mem_append.1 hx with hy | hy
            · exact hlgS e hy
            · exact hlgP e hy
          · exact hlgQ e hx

theorem spineIter_ok (co : List Int) (cs : List (Int × Int)) (fuel : Nat)
    (l r : Int) (hl : 0 ≤ l) (hr : 0 ≤ r) (m : Module) (l' r' : Int)
    (h : (spineIter co cs fuel l r).2 = Except.ok (m, l', r')) :
    0 ≤ l' ∧ 0 ≤ r' := by
  simp only [spineIter] at h
  rcases hS : seriesLoop co r fuel (l + 1) [] with ⟨lgS, resS⟩
  rw [hS] at h
  cases resS with
  | error e1 => simp at h
  | ok p =>
    rcases p with ⟨lEnd, mS⟩
    simp only [] at h
    have hlEnd : l + 1 ≤ lEnd :=
      seriesLoop_ge co r fuel (l + 1) [] lEnd mS (by rw [hS])
    by_cases hms : mS ≠ []
    · rw [if_pos hms] at h
      simp only [Except.ok.injEq, Prod.mk.injEq] at h
      omega
    · rw [if_neg hms] at h
      rcases hP : parallelLoop cs (lEnd - 1) fuel (r + 1) [] with ⟨lgP, resP⟩
      rw [hP] at h
      cases resP with
      | error e2 => simp at h
      | ok q =>
        rcases q with ⟨rEnd, mP⟩
        simp only [] at h
        have hrEnd : r + 1 ≤ rEnd :=
          parallelLoop_ge cs (lEnd - 1) fuel (r + 1) [] rEnd mP (by rw [hP])
        by_cases hmp : mP ≠ []
        · rw [if_pos hmp] at h
          simp only [Except.ok.injEq, Prod.mk.injEq] at h
          omega
        · rw [if_neg hmp] at h
          rcases hQ : primeStep co cs fuel (lEnd - 1) (rEnd - 1) with ⟨lgQ, resQ⟩
          rw [hQ] at h
          simp only [] at h
          cases resQ with
          | error e3 => simp at h
          | ok w =>
            rcases w with ⟨mod, t', m'⟩
            simp only [Except.ok.injEq, Prod.mk.injEq] at h
            have := primeStep_ok co cs fuel (lEnd - 1) (rEnd - 1) (by omega) (by omega)
              mod t' m' (by rw [hQ])
            omega

theorem spineLoop_log (co : List Int) (cs : List (Int × Int)) :
    ∀ fuel l r, 0 ≤ l → 0 ≤ r → ∀ e ∈ (spineLoop co cs fuel l r).1, 1 ≤ e.2 := by
  intro fuel
  induction fuel with
  | zero => intro l r _ _ e he; simp [spineLoop] at he
  | succ fuel ih =>
    intro l r hl hr e he
    simp only [spineLoop] at he
    by_cases hfix : l = Int.ofNat co.length ∧ r = Int.ofNat cs.length
    · rw [if_pos hfix] at he
      simp at he
    · rw [if_neg hfix] at he
      rcases hI : spineIter co cs fuel l r with ⟨lg, res⟩
      rw [hI] at he
      cases res with
      | error e1 =>
        simp only [] at he
        exact spineIter_log co cs fuel l r hl hr e (by rw [hI]; exact he)
      | ok w =>
        rcases w with ⟨m, l', r'⟩
        simp only [] at he
        have hok := spineIter_ok co cs fuel l r hl hr m l' r' (by rw [hI])
        rcases List.mem_append.1 he with hx | hx
        · exact spineIter_log co cs fuel l r hl hr e (by rw [hI]; exact hx)
        · exact ih l' r' hok.1 hok.2 e hx

/-- C3 amended: in `build_spine`, for every `μ`/`ρ` configuration and
any fuel, every subscript `sigma.co_components[i - 1]` or
`sigma.components[i - 1]` that the loops evaluate has `i ≥ 1`: the
indices never wrap to a negative Python index.  (The claimed upper
bounds `i ≤ a`, `i ≤ b` do not hold in general — see the
counterexample.) -/
theorem buildSpine_reads_never_negative (co : List Int) (cs : List (Int × Int))
    (fuel : Nat) : ∀ e ∈ (spineSteps co cs fuel).1, 1 ≤ e.2 := by
  intro e he
  exact spineLoop_log co cs fuel 0 0 le_rfl le_rfl e he

/-- Witness for `buildSpine_reads_never_negative` at the concrete
permutation of the counterexample and its first logged read. -/
theorem buildSpine_reads_never_negative_witness :
    ((true, (1 : Int)) ∈ (spineSteps [0] [(0, 0), (0, 0)] 50).1) ∧
      1 ≤ ((true, (1 : Int)).2 : Int) :=
  ⟨by decide,
   buildSpine_reads_never_negative [0] [(0, 0), (0, 0)] 50 (true, 1) (by decide)⟩

end MD
